import Mathlib

/-!
# repose: package records, the manifest field dispatcher and the file cache

A shallow embedding of `src/filecache.c`, `src/package.c` and `src/util.c`.

* Memory reached through a `char *` is a list of cells; a cell is a byte value or
  `none` when the byte is indeterminate (fresh from `malloc`).  Reading past the
  end of the list, or reading an indeterminate cell, is a fault.
* `errx(EXIT_FAILURE, ...)` is the outcome `Run.errx`.
* The widths of `unsigned long`, `size_t` and `int` come from `<limits.h>`; they
  are the fields of `Limits`.
* `alpm_pkg_vercmp` belongs to libalpm and is a parameter of `pkgcache_add`.
-/

set_option autoImplicit false

namespace Repose

/-! ## Memory and outcomes -/

/-- The cells readable from a pointer on: `some b` is the byte `b`, `none` an
indeterminate byte.  The list ends where the object ends. -/
abbrev Buf := List (Option Nat)

/-- Outcome of a call that may end the process or run into undefined behaviour. -/
inductive Run (α : Type) where
  | ok (a : α)
  | errx (msg : String)
  | fault
  deriving DecidableEq, Repr

/-- Continue with the value of a call that returned. -/
def Run.map {α β : Type} (f : α → β) : Run α → Run β
  | .ok a => .ok (f a)
  | .errx m => .errx m
  | .fault => .fault

/-- Sequence two calls. -/
def Run.bind {α β : Type} (x : Run α) (f : α → Run β) : Run β :=
  match x with
  | .ok a => f a
  | .errx m => .errx m
  | .fault => .fault

/-- The bytes of a buffer that holds no indeterminate cell. -/
def bytes (s : List Nat) : Buf := s.map some

/-- The string a `char *` denotes: the bytes before the first terminator.  `none`
when an indeterminate cell or the end of the object comes first. -/
def cstr : Buf → Option (List Nat)
  | [] => none
  | none :: _ => none
  | some c :: m => if c = 0 then some [] else (cstr m).map (fun t => c :: t)

/-- The call `malloc(n)` that succeeds: `n` indeterminate bytes. -/
def malloc (n : Nat) : Buf := List.replicate n none

/-- The store `r[i] = c`; `none` when `i` is outside the object. -/
def poke (r : Buf) (i : Nat) (c : Nat) : Option Buf :=
  if i < r.length then some (r.set i (some c)) else none

/-! ## util.h / util.c -/

/-- The call `strncmp(s1, s2, n)` of the C library: at most `n` bytes are compared and
nothing after a terminator is.  `none` is a read outside an object. -/
def strncmp : Buf → Buf → Nat → Option Int
  | _, _, 0 => some 0
  | some a :: s1, some b :: s2, n + 1 =>
    if a ≠ b then some (if a < b then -1 else 1)
    else if a = 0 then some 0
    else strncmp s1 s2 n
  | _, _, _ + 1 => none

/-- Function `strneq` of util.h: `strncmp(s1, s2, len) == 0`. -/
def strneq (s1 s2 : Buf) (len : Nat) : Option Bool :=
  (strncmp s1 s2 len).map (fun r => decide (r = 0))

/-- The loop of the `strndup` shim and the store after it.  `s` is the source from
the read pointer on, `p` the offset of the write pointer in `r`, `n` the count. -/
def strndup_loop : Buf → Buf → Nat → Nat → Option Buf
  | [], _, _, _ => none
  | none :: _, _, _, _ => none
  | some c :: s, r, p, n =>
    if c ≠ 0 ∧ n > 0 then
      match poke r p c with
      | none => none
      | some r1 => strndup_loop s r1 (p + 1) (n - 1)
    else poke r p c

/-- The `strndup` shim of util.c: `r = malloc(n+1); r[n] = 0;` then the loop.
`none` is a read or a store outside an object. -/
def strndup (s : Buf) (n : Nat) : Option Buf :=
  match poke (malloc (n + 1)) n 0 with
  | none => none
  | some r => strndup_loop s r 0 n

/-- Values of `errno` the sources set or test. -/
inductive Errno where
  | EINVAL
  | ERANGE
  | ENOENT
  | EACCES
  deriving DecidableEq, Repr

/-- The integer limits of the platform. -/
structure Limits where
  ULONG_MAX : Nat
  SIZE_MAX : Nat
  INT_MAX : Nat
  deriving DecidableEq, Repr

/-- The test `isspace` in the C locale. -/
def isspace (c : Nat) : Bool := c == 32 || (9 ≤ c && c ≤ 13)

/-- The test `isdigit` in the C locale. -/
def isdigit (c : Nat) : Bool := 48 ≤ c && c ≤ 57

/-- The number a run of decimal digit bytes denotes. -/
def digits_value (ds : List Nat) : Nat := ds.foldl (fun a d => 10 * a + (d - 48)) 0

/-- The part of a string after an optional sign byte. -/
def skip_sign (s : List Nat) : List Nat :=
  match s with
  | c :: t => if c = 45 ∨ c = 43 then t else s
  | [] => []

/-- The call `strtoul(str, &end, 10)` of the C library (ISO C 7.22.1.4) on the string
`str`: white space is skipped, one sign is accepted, the digits are converted; a
minus sign negates in the return type; a magnitude above `ULONG_MAX` gives
`ULONG_MAX` and `ERANGE`; with no digit there is no conversion and `end` is
`str`.  The result is the value, the string at `end`, and the `errno` set. -/
def strtoul (umax : Nat) (str : List Nat) : Nat × List Nat × Option Errno :=
  let s := str.dropWhile isspace
  let t := skip_sign s
  let ds := t.takeWhile isdigit
  if ds = [] then (0, str, none)
  else if digits_value ds > umax then (umax, t.dropWhile isdigit, some .ERANGE)
  else if s.head? = some 45 then
    ((umax + 1 - digits_value ds) % (umax + 1), t.dropWhile isdigit, none)
  else (digits_value ds, t.dropWhile isdigit, none)

/-- Function `xstrtoul` of util.c on the string `str`: the return code, the final `*out`
and the final `errno`. -/
def xstrtoul (umax : Nat) (str : List Nat) (out : Nat) : Int × Nat × Option Errno :=
  if str = [] then (-1, out, some .EINVAL)
  else
    match strtoul umax str with
    | (v, _, some e) => (-1, v, some e)
    | (v, rest, none) =>
      if rest.length = str.length ∨ rest ≠ [] then (-1, v, some .EINVAL)
      else (0, v, none)

/-- Function `parse_size` of util.c: the return code, the final `*out` and `errno`. -/
def parse_size (L : Limits) (str : List Nat) (out : Nat) : Int × Nat × Option Errno :=
  match xstrtoul L.ULONG_MAX str 0 with
  | (rc, value, e) =>
    if rc < 0 then (-1, out, e)
    else if value > L.SIZE_MAX then (-1, out, some .ERANGE)
    else (0, value, e)

/-- Function `parse_time` of util.c: the return code, the final `*out` and `errno`. -/
def parse_time (L : Limits) (str : List Nat) (out : Nat) : Int × Nat × Option Errno :=
  match xstrtoul L.ULONG_MAX str 0 with
  | (rc, value, e) =>
    if rc < 0 then (-1, out, e)
    else if value > L.INT_MAX then (-1, out, some .ERANGE)
    else (0, value, e)

/-! ## package.h / package.c -/

/-- The record `struct pkg`: a `char *` field is `none` when NULL, an `alpm_list_t *` of
strings is the list of its buffers in order. -/
structure pkg where
  filename : Option Buf := none
  name : Option Buf := none
  name_hash : Nat := 0
  base : Option Buf := none
  version : Option Buf := none
  desc : Option Buf := none
  url : Option Buf := none
  packager : Option Buf := none
  sha256sum : Option Buf := none
  base64sig : Option Buf := none
  arch : Option Buf := none
  size : Nat := 0
  isize : Nat := 0
  builddate : Nat := 0
  mtime : Nat := 0
  groups : List Buf := []
  licenses : List Buf := []
  replaces : List Buf := []
  depends : List Buf := []
  conflicts : List Buf := []
  provides : List Buf := []
  optdepends : List Buf := []
  makedepends : List Buf := []
  checkdepends : List Buf := []
  files : List Buf := []
  deriving DecidableEq, Repr

/-- The keys `enum pkg_entry`; `PKG_OTHER` stands for every value `package_set` has no
case for. -/
inductive pkg_entry where
  | PKG_FILENAME | PKG_PKGNAME | PKG_PKGBASE | PKG_VERSION | PKG_DESCRIPTION
  | PKG_GROUPS | PKG_CSIZE | PKG_ISIZE | PKG_SHA256SUM | PKG_PGPSIG | PKG_URL
  | PKG_LICENSE | PKG_ARCH | PKG_BUILDDATE | PKG_PACKAGER | PKG_REPLACES
  | PKG_DEPENDS | PKG_CONFLICTS | PKG_PROVIDES | PKG_OPTDEPENDS | PKG_MAKEDEPENDS
  | PKG_CHECKDEPENDS | PKG_FILES
  | PKG_OTHER (code : Nat)
  deriving DecidableEq, Repr

/-- Function `alpm_list_add` of libalpm: the item goes to the end of the list. -/
def alpm_list_add (list : List Buf) (data : Buf) : List Buf := list ++ [data]

/-- Function `pkg_append_list`: the new `*list`. -/
def pkg_append_list (entry : Buf) (len : Nat) (list : List Buf) : Run (List Buf) :=
  match strndup entry len with
  | none => .fault
  | some r => .ok (alpm_list_add list r)

/-- Function `pkg_set_string`: the new `*data` (the old one is freed). -/
def pkg_set_string (entry : Buf) (len : Nat) (_data : Option Buf) : Run (Option Buf) :=
  match strndup entry len with
  | none => .fault
  | some r => .ok (some r)

/-- Function `pkg_set_size`: the new `*data`; the return code of `parse_size` is dropped. -/
def pkg_set_size (L : Limits) (entry : Buf) (_len : Nat) (data : Nat) : Run Nat :=
  match cstr entry with
  | none => .fault
  | some str => .ok (parse_size L str data).2.1

/-- Function `pkg_set_time`: the new `*data`; the return code of `parse_time` is dropped. -/
def pkg_set_time (L : Limits) (entry : Buf) (_len : Nat) (data : Nat) : Run Nat :=
  match cstr entry with
  | none => .fault
  | some str => .ok (parse_time L str data).2.1

/-- The identity-field case of `package_set`: set when NULL, else compare. -/
def set_identity (entry : Buf) (len : Nat) (field : Option Buf) (msg : String) :
    Run (Option Buf) :=
  match field with
  | none => pkg_set_string entry len field
  | some cur =>
    match strneq entry cur len with
    | none => .fault
    | some true => .ok field
    | some false => .errx msg

/-- Function `package_set` of package.c. -/
def package_set (L : Limits) (p : pkg) (type : pkg_entry) (entry : Buf) (len : Nat) :
    Run pkg :=
  match type with
  | .PKG_FILENAME =>
    (pkg_set_string entry len p.filename).map (fun v => { p with filename := v })
  | .PKG_PKGNAME =>
    (set_identity entry len p.name
      "database entry %NAME% and desc record are mismatched!").map
      (fun v => { p with name := v })
  | .PKG_PKGBASE =>
    (pkg_set_string entry len p.base).map (fun v => { p with base := v })
  | .PKG_VERSION =>
    (set_identity entry len p.version
      "database entry %VERSION% and desc record are mismatched!").map
      (fun v => { p with version := v })
  | .PKG_DESCRIPTION =>
    (pkg_set_string entry len p.desc).map (fun v => { p with desc := v })
  | .PKG_GROUPS =>
    (pkg_append_list entry len p.groups).map (fun v => { p with groups := v })
  | .PKG_CSIZE =>
    (pkg_set_size L entry len p.size).map (fun v => { p with size := v })
  | .PKG_ISIZE =>
    (pkg_set_size L entry len p.isize).map (fun v => { p with isize := v })
  | .PKG_SHA256SUM =>
    (pkg_set_string entry len p.sha256sum).map (fun v => { p with sha256sum := v })
  | .PKG_PGPSIG =>
    (pkg_set_string entry len p.base64sig).map (fun v => { p with base64sig := v })
  | .PKG_URL =>
    (pkg_set_string entry len p.url).map (fun v => { p with url := v })
  | .PKG_LICENSE =>
    (pkg_append_list entry len p.licenses).map (fun v => { p with licenses := v })
  | .PKG_ARCH =>
    (pkg_set_string entry len p.arch).map (fun v => { p with arch := v })
  | .PKG_BUILDDATE =>
    (pkg_set_time L entry len p.builddate).map (fun v => { p with builddate := v })
  | .PKG_PACKAGER =>
    (pkg_set_string entry len p.packager).map (fun v => { p with packager := v })
  | .PKG_REPLACES =>
    (pkg_append_list entry len p.replaces).map (fun v => { p with replaces := v })
  | .PKG_DEPENDS =>
    (pkg_append_list entry len p.depends).map (fun v => { p with depends := v })
  | .PKG_CONFLICTS =>
    (pkg_append_list entry len p.conflicts).map (fun v => { p with conflicts := v })
  | .PKG_PROVIDES =>
    (pkg_append_list entry len p.provides).map (fun v => { p with provides := v })
  | .PKG_OPTDEPENDS =>
    (pkg_append_list entry len p.optdepends).map (fun v => { p with optdepends := v })
  | .PKG_MAKEDEPENDS =>
    (pkg_append_list entry len p.makedepends).map (fun v => { p with makedepends := v })
  | .PKG_CHECKDEPENDS =>
    (pkg_append_list entry len p.checkdepends).map
      (fun v => { p with checkdepends := v })
  | .PKG_FILES =>
    (pkg_append_list entry len p.files).map (fun v => { p with files := v })
  | .PKG_OTHER _ => .errx "parse failure"

/-! ## pkghash.h and filecache.c -/

/-- The string a `char *` field denotes; `none` when the pointer is NULL or the
buffer holds no terminator. -/
def strval (s : Option Buf) : Option (List Nat) := s.bind cstr

/-- The package hash table as the list of its records in slot order. -/
abbrev alpm_pkghash_t := List pkg

/-- Modelled from the spec: `_alpm_pkghash_find` (pkghash.c is not among the
sources).  "`find(name)` returns the current record for a name or absent"; names
are compared as strings. -/
def _alpm_pkghash_find (cache : alpm_pkghash_t) (name : Option Buf) : Option pkg :=
  cache.find? (fun e => decide (strval e.name = strval name))

/-- Modelled from the spec: `_alpm_pkghash_add` (pkghash.c is not among the
sources).  "insert the new record": it takes a fresh slot. -/
def _alpm_pkghash_add (cache : alpm_pkghash_t) (p : pkg) : alpm_pkghash_t :=
  cache ++ [p]

/-- Modelled from the spec: `_alpm_pkghash_replace` (pkghash.c is not among the
sources).  "replace the existing stored record in place": the slot of the name of
`old` receives `new`, every other slot stays. -/
def _alpm_pkghash_replace (cache : alpm_pkghash_t) (new old : pkg) : alpm_pkghash_t :=
  match cache with
  | [] => []
  | e :: es =>
    if strval e.name = strval old.name then new :: es
    else e :: _alpm_pkghash_replace es new old

/-- Function `pkgcache_add` of filecache.c; `vercmp` is `alpm_pkg_vercmp`. -/
def pkgcache_add (vercmp : Option Buf → Option Buf → Int) (cache : alpm_pkghash_t)
    (p : pkg) : alpm_pkghash_t :=
  match _alpm_pkghash_find cache p.name with
  | none => _alpm_pkghash_add cache p
  | some old =>
    if vercmp p.version old.version = 0 ∨ vercmp p.version old.version = 1 then
      _alpm_pkghash_replace cache p old
    else cache

/-- The cache after offering the records of a scan in order, from the empty cache. -/
def offer_all (vercmp : Option Buf → Option Buf → Int) (offers : List pkg) :
    alpm_pkghash_t :=
  offers.foldl (pkgcache_add vercmp) []

/-- The manifest reader hands the lines of one key to the dispatcher one after
the other: `package_set` on each (entry, len) in order, stopping at the first call
that does not return. -/
def package_set_all (L : Limits) (p : pkg) (type : pkg_entry) :
    List (Buf × Nat) → Run pkg
  | [] => .ok p
  | e :: rest =>
    (package_set L p type e.1 e.2).bind (fun p1 => package_set_all L p1 type rest)

/-- The keys of the string fields: filename, base, description, url, packager,
architecture, checksum, signature. -/
def string_keys : List pkg_entry :=
  [.PKG_FILENAME, .PKG_PKGBASE, .PKG_DESCRIPTION, .PKG_URL, .PKG_PACKAGER, .PKG_ARCH,
   .PKG_SHA256SUM, .PKG_PGPSIG]

/-- The record with the string field of a key replaced and nothing else changed. -/
def put_string (type : pkg_entry) (p : pkg) (v : Option Buf) : pkg :=
  match type with
  | .PKG_FILENAME => { p with filename := v }
  | .PKG_PKGBASE => { p with base := v }
  | .PKG_DESCRIPTION => { p with desc := v }
  | .PKG_URL => { p with url := v }
  | .PKG_PACKAGER => { p with packager := v }
  | .PKG_ARCH => { p with arch := v }
  | .PKG_SHA256SUM => { p with sha256sum := v }
  | .PKG_PGPSIG => { p with base64sig := v }
  | _ => p

/-- The keys of the list fields: groups, licenses, depends, conflicts, provides,
optdepends, makedepends, checkdepends, files. -/
def list_keys : List pkg_entry :=
  [.PKG_GROUPS, .PKG_LICENSE, .PKG_DEPENDS, .PKG_CONFLICTS, .PKG_PROVIDES,
   .PKG_OPTDEPENDS, .PKG_MAKEDEPENDS, .PKG_CHECKDEPENDS, .PKG_FILES]

/-- The list field of a key. -/
def get_list (type : pkg_entry) (p : pkg) : List Buf :=
  match type with
  | .PKG_GROUPS => p.groups
  | .PKG_LICENSE => p.licenses
  | .PKG_DEPENDS => p.depends
  | .PKG_CONFLICTS => p.conflicts
  | .PKG_PROVIDES => p.provides
  | .PKG_OPTDEPENDS => p.optdepends
  | .PKG_MAKEDEPENDS => p.makedepends
  | .PKG_CHECKDEPENDS => p.checkdepends
  | .PKG_FILES => p.files
  | _ => []

/-- The record with the list field of a key replaced and nothing else changed. -/
def put_list (type : pkg_entry) (p : pkg) (v : List Buf) : pkg :=
  match type with
  | .PKG_GROUPS => { p with groups := v }
  | .PKG_LICENSE => { p with licenses := v }
  | .PKG_DEPENDS => { p with depends := v }
  | .PKG_CONFLICTS => { p with conflicts := v }
  | .PKG_PROVIDES => { p with provides := v }
  | .PKG_OPTDEPENDS => { p with optdepends := v }
  | .PKG_MAKEDEPENDS => { p with makedepends := v }
  | .PKG_CHECKDEPENDS => { p with checkdepends := v }
  | .PKG_FILES => { p with files := v }
  | _ => p

/-- A platform with 32-bit `unsigned long`, `size_t` and `int`. -/
def L32 : Limits := { ULONG_MAX := 4294967295, SIZE_MAX := 4294967295, INT_MAX := 2147483647 }

/-! ## The loader: files, archives and the directory -/

/-- The fields of `struct stat` the loader reads. -/
structure Stat where
  st_size : Nat
  st_mtime : Nat
  deriving DecidableEq, Repr

/-- The test `S_ISREG(mode)` of `<sys/stat.h>`: the file-type bits `0170000` of the
mode are `0100000`. -/
def S_ISREG (mode : Nat) : Bool := mode / 4096 % 16 == 8

/-- One header returned by `archive_read_next_header` with `ARCHIVE_OK`: its path,
its mode, and the (key, entry, len) triples the manifest reader dispatches when
the entry is read. -/
structure archive_entry where
  pathname : List Nat
  mode : Nat
  lines : List (pkg_entry × Buf × Nat)
  deriving DecidableEq, Repr

/-- An open file: what `fstat` answers (`none` when it fails), the entry headers
when `archive_read_open_fd` succeeds (`none` when it does not), and the bytes
`read` delivers (`none` when it fails). -/
structure File where
  st : Option Stat
  archive : Option (List archive_entry)
  content : Option (List Nat)
  deriving DecidableEq, Repr

/-- The extra blocks of a QNX directory entry. -/
inductive dirent_extra where
  | DTYPE_NONE
  | DTYPE_STAT (st_mode : Nat)
  | DTYPE_LSTAT (st_mode : Nat)
  | DTYPE_OTHER (d_type : Nat)
  deriving DecidableEq, Repr

/-- The record `struct dirent`: the name and the extra blocks in order. -/
structure dirent where
  d_name : List Nat
  extras : List dirent_extra
  deriving DecidableEq, Repr

/-- The directory behind `dirfd`: whether `dup`, `lseek` and `fdopendir` succeed on
it, its entries in the order `readdir` returns them, and the result of
`openat(dirfd, name, O_RDONLY)` for every name. -/
structure Dir where
  dup_ok : Bool
  lseek_ok : Bool
  fdopendir_ok : Bool
  entries : List dirent
  openat : List Nat → Except Errno File

/-- The directory stream `DIR`: the entries and the position of the next one. -/
structure DIR where
  entries : List dirent
  pos : Nat
  deriving DecidableEq, Repr

/-- The collaborators of the loader that live outside the sources: the integer
limits, `alpm_pkg_vercmp` and `_alpm_hash_sdbm` of libalpm, `match_targets` and
`match_arch` of filters.c, `base64_encode` of base64.c. -/
structure Collab where
  L : Limits
  vercmp : Option Buf → Option Buf → Int
  match_targets : pkg → List Buf → Bool
  match_arch : pkg → Buf → Bool
  hash_sdbm : Option Buf → Nat
  base64_encode : List Nat → Option Buf

/-- The manifest name `".PKGINFO"`. -/
def PKGINFO : List Nat := [46, 80, 75, 71, 73, 78, 70, 79]

/-- The suffix `".sig"`. -/
def SIG : List Nat := [46, 115, 105, 103]

/-- Modelled from the spec: `read_pkginfo` (pkginfo.c is not among the sources).
"its content is read line-by-line as `key = value` pairs ...; each pair is
forwarded to the MetadataFieldDispatcher together with the pair's byte length". -/
def read_pkginfo (L : Limits) (p : pkg) : List (pkg_entry × Buf × Nat) → Run pkg
  | [] => .ok p
  | l :: rest => (package_set L p l.1 l.2.1 l.2.2).bind (fun q => read_pkginfo L q rest)

/-- The test of `load_package` on a header: a regular file named `.PKGINFO`. -/
def is_pkginfo (e : archive_entry) : Bool := S_ISREG e.mode && decide (e.pathname = PKGINFO)

/-- The `while` loop of `load_package` over the headers still to come: the record
and `found_pkginfo` when the loop ends. -/
def load_package_loop (L : Limits) : pkg → List archive_entry → Bool → Run (pkg × Bool)
  | p, [], found => .ok (p, found)
  | p, e :: rest, found =>
    if found then .ok (p, found)
    else if is_pkginfo e then
      (read_pkginfo L p e.lines).bind (fun q => load_package_loop L q rest true)
    else load_package_loop L p rest found

/-- Function `load_package` of package.c: the return code and the record. -/
def load_package (E : Collab) (p : pkg) (f : File) : Run (Int × pkg) :=
  match f.st with
  | none => .errx "failed to stat file"
  | some st =>
    match f.archive with
    | none => .ok (-1, p)
    | some entries =>
      (load_package_loop E.L p entries false).map (fun r =>
        if r.2 then
          (0, { r.1 with size := st.st_size, mtime := st.st_mtime,
                         name_hash := E.hash_sdbm r.1.name })
        else (-1, r.1))

/-- Function `load_package_signature` of package.c: the return code, the record,
and `errno` as `openat` left it when the sidecar could not be opened. -/
def load_package_signature (E : Collab) (p : pkg) (dir : Dir) :
    Run (Int × pkg × Option Errno) :=
  match strval p.filename with
  | none => .fault
  | some fname =>
    match dir.openat (fname ++ SIG) with
    | .error e => .ok (-1, p, some e)
    | .ok f =>
      match f.st with
      | none => .errx "failed to stat signature"
      | some st =>
        match f.content with
        | none => .errx "failed to read signature"
        | some data =>
          match E.base64_encode data with
          | none => .errx "failed to find base64 signature"
          | some sig =>
            .ok (0, { p with base64sig := some sig,
                             mtime := if st.st_mtime > p.mtime then st.st_mtime
                                      else p.mtime }, none)

/-- Function `load_from_file` of filecache.c: the record, or `none` for NULL. -/
def load_from_file (E : Collab) (dir : Dir) (filename : List Nat) : Run (Option pkg) :=
  match dir.openat filename with
  | .error _ => .errx "failed to open %s"
  | .ok f =>
    (load_package E { filename := some (bytes filename ++ [some 0]) } f).bind (fun r =>
      if r.1 < 0 then .ok none
      else
        (load_package_signature E r.2 dir).bind (fun s =>
          if s.1 < 0 ∧ s.2.2 ≠ some .ENOENT then .ok none
          else .ok (some s.2.1)))

/-- The loop of `is_file` over the extra blocks of an entry. -/
def is_file_extras : List dirent_extra → Bool
  | [] => false
  | .DTYPE_STAT m :: _ => S_ISREG m
  | .DTYPE_LSTAT m :: _ => S_ISREG m
  | _ :: rest => is_file_extras rest

/-- Function `is_file` of filecache.c (the QNX branch). -/
def is_file (dp : dirent) : Bool := is_file_extras dp.extras

/-- The entries the coming `readdir` calls on a stream return, in order. -/
def pending (dirp : DIR) : List dirent := dirp.entries.drop dirp.pos

/-- The call `rewinddir(dirp)`. -/
def rewinddir (dirp : DIR) : DIR := { dirp with pos := 0 }

/-- The loop of `get_filecache_size` over the entries to come. -/
def count_files : List dirent → Nat → Nat
  | [], size => size
  | dp :: rest, size => count_files rest (if is_file dp then size + 1 else size)

/-- Function `get_filecache_size` of filecache.c: the count, and the stream after
the `rewinddir`. -/
def get_filecache_size (dirp : DIR) : Nat × DIR :=
  (count_files (pending dirp) 0, rewinddir { dirp with pos := dirp.entries.length })

/-- The filters of `scan_for_targets`: a record is kept when no target is given or
`match_targets` holds, and no architecture is given or `match_arch` holds. -/
def passes (E : Collab) (targets : List Buf) (arch : Option Buf) (p : pkg) : Bool :=
  (decide (targets = []) || E.match_targets p targets) &&
  (match arch with
   | none => true
   | some a => E.match_arch p a)

/-- The test `targets && !match_targets(pkg, targets)`; a NULL list is the empty
list. -/
def targets_reject (E : Collab) (targets : List Buf) (p : pkg) : Bool :=
  decide (targets ≠ []) && !E.match_targets p targets

/-- The test `arch && !match_arch(pkg, arch)`. -/
def arch_rejects (E : Collab) (arch : Option Buf) (p : pkg) : Bool :=
  match arch with
  | none => false
  | some a => !E.match_arch p a

/-- The loop of `scan_for_targets` over the entries to come. -/
def scan_loop (E : Collab) (dir : Dir) (targets : List Buf) (arch : Option Buf) :
    alpm_pkghash_t → List dirent → Run alpm_pkghash_t
  | cache, [] => .ok cache
  | cache, dp :: rest =>
    if !is_file dp then scan_loop E dir targets arch cache rest
    else
      match load_from_file E dir dp.d_name with
      | .errx m => .errx m
      | .fault => .fault
      | .ok none => scan_loop E dir targets arch cache rest
      | .ok (some p) =>
        if targets_reject E targets p then scan_loop E dir targets arch cache rest
        else if arch_rejects E arch p then scan_loop E dir targets arch cache rest
        else scan_loop E dir targets arch (pkgcache_add E.vercmp cache p) rest

/-- Function `scan_for_targets` of filecache.c. -/
def scan_for_targets (E : Collab) (cache : alpm_pkghash_t) (dir : Dir) (dirp : DIR)
    (targets : List Buf) (arch : Option Buf) : Run alpm_pkghash_t :=
  scan_loop E dir targets arch cache (pending dirp)

/-- Modelled from the spec: `_alpm_pkghash_create` (pkghash.c is not among the
sources).  The expected count is "a performance contract, not a correctness one":
the new table is empty. -/
def _alpm_pkghash_create (_size : Nat) : alpm_pkghash_t := []

/-- Function `get_filecache` of filecache.c. -/
def get_filecache (E : Collab) (dir : Dir) (targets : List Buf) (arch : Option Buf) :
    Run alpm_pkghash_t :=
  if !dir.dup_ok then .errx "failed to duplicate fd"
  else if !dir.lseek_ok then .errx "failed to lseek"
  else if !dir.fdopendir_ok then .errx "fdopendir failed"
  else
    scan_for_targets E (_alpm_pkghash_create (get_filecache_size ⟨dir.entries, 0⟩).1) dir
      (get_filecache_size ⟨dir.entries, 0⟩).2 targets arch

/-- The records `load_from_file` returns for the plain files of a listing, in
order; the first call that does not return ends it. -/
def loaded (E : Collab) (dir : Dir) : List dirent → Run (List pkg)
  | [] => .ok []
  | dp :: rest =>
    if !is_file dp then loaded E dir rest
    else
      (load_from_file E dir dp.d_name).bind (fun r =>
        (loaded E dir rest).map (fun l =>
          match r with
          | none => l
          | some p => p :: l))

/-! ## util.c: hex_representation and strstrip -/

/-- The object `hex_digits`: the sixteen digits and the terminator. -/
def hex_digits : List Nat :=
  [48, 49, 50, 51, 52, 53, 54, 55, 56, 57, 97, 98, 99, 100, 101, 102, 0]

/-- The loop of `hex_representation`: the bytes from `bytes[i]` on, the buffer
`str`, the index `i` and the number `size - i` of rounds to go.  The shift
`b >> 4` of an `unsigned char` is `b / 16` and the mask `b & 0x0f` is `b % 16`.
`none` is a read or a store outside an object. -/
def hex_representation_loop : List Nat → Buf → Nat → Nat → Option Buf
  | _, str, _, 0 => some str
  | [], _, _, _ + 1 => none
  | b :: rest, str, i, k + 1 =>
    (hex_digits[b / 16]?).bind (fun hi =>
      (poke str (2 * i) hi).bind (fun s1 =>
        (hex_digits[b % 16]?).bind (fun lo =>
          (poke s1 (2 * i + 1) lo).bind (fun s2 =>
            hex_representation_loop rest s2 (i + 1) k))))

/-- Function `hex_representation` of util.c: the buffer of `2 * size + 1` bytes. -/
def hex_representation (bs : List Nat) (size : Nat) : Option Buf :=
  (hex_representation_loop bs (malloc (2 * size + 1)) 0 size).bind (fun str =>
    poke str (2 * size) 0)

/-- The character of a hexadecimal digit below sixteen, in lower case. -/
def hex_char (n : Nat) : Nat := if n < 10 then 48 + n else 87 + n

/-- The two characters of each byte in order: high nibble, then low nibble. -/
def hex_string : List Nat → List Nat
  | [] => []
  | b :: rest => hex_char (b / 16) :: hex_char (b % 16) :: hex_string rest

/-- The value of a hexadecimal digit character in lower case. -/
def hex_value (c : Nat) : Option Nat :=
  if 48 ≤ c ∧ c ≤ 57 then some (c - 48)
  else if 97 ≤ c ∧ c ≤ 102 then some (c - 87)
  else none

/-- Decoding of a string of hexadecimal pairs into bytes. -/
def hex_decode : List Nat → Option (List Nat)
  | [] => some []
  | [_] => none
  | hi :: lo :: rest =>
    (hex_value hi).bind (fun h =>
      (hex_value lo).bind (fun l =>
        (hex_decode rest).map (fun t => (16 * h + l) :: t)))

/-- The characters of `WHITESPACE`: space, tab, newline, carriage return. -/
def WHITESPACE : List Nat := [32, 9, 10, 13]

/-- The call `strspn(s, accept)` of the C library on the characters of `s`: the
length of the leading run of characters found in `accept`. -/
def strspn : List Nat → List Nat → Nat
  | [], _ => 0
  | c :: t, accept => if accept.contains c then strspn t accept + 1 else 0

/-- The test `strchr(str, c) != NULL` of the C library: the terminator counts as
part of the string. -/
def strchr_found (str : List Nat) (c : Nat) : Bool := c == 0 || str.contains c

/-- The `for` loop of `strstrip` on the characters `s` of the string after the
leading white space: from the offset `e` of the end pointer, the offset at which
the loop stops. -/
def strstrip_loop (s : List Nat) : Nat → Nat
  | 0 => 0
  | e + 1 =>
    if !strchr_found WHITESPACE (s.getD e 0) then e + 1
    else strstrip_loop s e

/-- Function `strstrip` of util.c on the memory at `s`: the offset of the pointer
returned and the memory after the store `*e = 0`.  `none` when `s` holds no
terminated string. -/
def strstrip (mem : Buf) : Option (Nat × Buf) :=
  match cstr mem with
  | none => none
  | some v =>
    (poke mem
      (strspn v WHITESPACE
        + strstrip_loop (v.drop (strspn v WHITESPACE))
            (v.drop (strspn v WHITESPACE)).length) 0).map
      (fun m => (strspn v WHITESPACE, m))

/-- The invariant of a scan: the names in the cache are pairwise distinct, every
record offered so far has its name in the cache, and the record stored under a
name is not older than any record offered under that name. -/
def cache_inv (vercmp : Option Buf → Option Buf → Int) (c : alpm_pkghash_t)
    (seen : List pkg) : Prop :=
  (c.map (fun e => strval e.name)).Nodup ∧
  (∀ q ∈ seen, ∃ e ∈ c, strval e.name = strval q.name) ∧
  (∀ e ∈ c, ∀ q ∈ seen, strval q.name = strval e.name → 0 ≤ vercmp e.version q.version)

/-- A version order for examples: versions compare by the length of their buffer. -/
def vercmp_len (a b : Option Buf) : Int :=
  if (a.getD []).length < (b.getD []).length then -1
  else if (a.getD []).length = (b.getD []).length then 0
  else 1

/-! ## Example environment -/

/-- Collaborators for examples: 32-bit limits, versions ordered by length, every
target matching, architectures compared as strings, a constant hash and a
stand-in encoder. -/
def E0 : Collab :=
  { L := L32
    vercmp := vercmp_len
    match_targets := fun _ _ => true
    match_arch := fun p a => decide (strval p.arch = cstr a)
    hash_sdbm := fun _ => 0
    base64_encode := fun d => some (bytes d ++ [some 0]) }

/-- An archive with the manifest `pkgname = a`, `pkgver = 1`, changed at time 10. -/
def file_a : File :=
  { st := some { st_size := 100, st_mtime := 10 }
    archive := some [
      { pathname := [97], mode := 33188, lines := [] },
      { pathname := PKGINFO, mode := 33188,
        lines := [(.PKG_PKGNAME, bytes [97, 0], 1), (.PKG_VERSION, bytes [49, 0], 1)] }]
    content := none }

/-- A file that is no archive. -/
def file_b : File :=
  { st := some { st_size := 3, st_mtime := 5 }, archive := none, content := none }

/-- A signature sidecar of four bytes, changed at time 20. -/
def file_sig : File :=
  { st := some { st_size := 4, st_mtime := 20 }, archive := none,
    content := some [1, 2, 3, 4] }

/-- A directory with the given listing where `a` opens as `file_a`, `b` as
`file_b`, `a.sig` as given, and no other name exists. -/
def dir_of (entries : List dirent) (sig : Except Errno File) : Dir :=
  { dup_ok := true, lseek_ok := true, fdopendir_ok := true
    entries := entries
    openat := fun n =>
      if n = [97] then .ok file_a
      else if n = [98] then .ok file_b
      else if n = [97] ++ SIG then sig
      else .error .ENOENT }

/-- The directory entry of the regular file `a`. -/
def dp_a : dirent := { d_name := [97], extras := [.DTYPE_STAT 33188] }

/-- The directory entry of the regular file `b`. -/
def dp_b : dirent := { d_name := [98], extras := [.DTYPE_NONE, .DTYPE_LSTAT 33188] }

/-- The directory entry of a subdirectory. -/
def dp_sub : dirent := { d_name := [99], extras := [.DTYPE_STAT 16877] }

/-- The record loaded from `file_a` before a signature is attached. -/
def pkg_a : pkg :=
  { filename := some (bytes [97, 0]), name := some (bytes [97, 0]),
    version := some (bytes [49, 0]), size := 100, mtime := 10 }

end Repose

namespace Repose

/-! ## The cache: lemmas on the name-keyed store -/

theorem find_name {c : alpm_pkghash_t} {n : Option Buf} {e : pkg}
    (h : _alpm_pkghash_find c n = some e) : strval e.name = strval n := by
  have h1 := List.find?_some h
  simpa using h1

theorem find_congr (c : alpm_pkghash_t) {n1 n2 : Option Buf}
    (h : strval n1 = strval n2) : _alpm_pkghash_find c n1 = _alpm_pkghash_find c n2 := by
  simp [_alpm_pkghash_find, h]

theorem find_mem {c : alpm_pkghash_t} {n : Option Buf} {e : pkg}
    (h : _alpm_pkghash_find c n = some e) : e ∈ c :=
  List.mem_of_find?_eq_some h

theorem find_none_iff (c : alpm_pkghash_t) (n : Option Buf) :
    _alpm_pkghash_find c n = none ↔ ∀ e ∈ c, strval e.name ≠ strval n := by
  simp [_alpm_pkghash_find, List.find?_eq_none]

theorem find_cons (e : pkg) (es : alpm_pkghash_t) (n : Option Buf) :
    _alpm_pkghash_find (e :: es) n
      = if strval e.name = strval n then some e else _alpm_pkghash_find es n := by
  by_cases h : strval e.name = strval n <;> simp [_alpm_pkghash_find, List.find?_cons, h]

theorem find_add (c : alpm_pkghash_t) (p : pkg) (n : Option Buf) :
    _alpm_pkghash_find (_alpm_pkghash_add c p) n
      = (_alpm_pkghash_find c n).or (if strval p.name = strval n then some p else none) := by
  induction c with
  | nil => by_cases h : strval p.name = strval n <;> simp [_alpm_pkghash_add, _alpm_pkghash_find, h]
  | cons e es ih =>
    have h2 : _alpm_pkghash_add (e :: es) p = e :: _alpm_pkghash_add es p := rfl
    rw [h2, find_cons, find_cons, ih]
    by_cases h : strval e.name = strval n <;> simp [h]

theorem length_replace (c : alpm_pkghash_t) (new old : pkg) :
    (_alpm_pkghash_replace c new old).length = c.length := by
  induction c with
  | nil => rfl
  | cons e es ih =>
    by_cases h : strval e.name = strval old.name <;> simp [_alpm_pkghash_replace, h, ih]

theorem find_replace (c : alpm_pkghash_t) (new old : pkg) (hn : strval new.name = strval old.name)
    (n : Option Buf) :
    _alpm_pkghash_find (_alpm_pkghash_replace c new old) n
      = if strval n = strval old.name then (_alpm_pkghash_find c n).map (fun _ => new)
        else _alpm_pkghash_find c n := by
  induction c with
  | nil => simp [_alpm_pkghash_replace, _alpm_pkghash_find]
  | cons e es ih =>
    by_cases h : strval e.name = strval old.name
    · simp only [_alpm_pkghash_replace, h, if_true, find_cons, hn]
      by_cases h3 : strval n = strval old.name
      · simp [h3]
      · have h4 : ¬ strval old.name = strval n := fun h5 => h3 h5.symm
        simp [h3, h4]
    · simp only [_alpm_pkghash_replace, h, if_false, find_cons, ih]
      by_cases h3 : strval e.name = strval n
      · have h4 : ¬ strval n = strval old.name := fun h5 => h (h3.trans h5)
        simp [h3, h4]
      · simp [h3]

theorem replace_split (c : alpm_pkghash_t) (new old : pkg)
    (hold : _alpm_pkghash_find c old.name = some old) :
    ∃ pre post, c = pre ++ old :: post ∧
      _alpm_pkghash_replace c new old = pre ++ new :: post ∧
      ∀ e ∈ pre, strval e.name ≠ strval old.name := by
  induction c with
  | nil => simp [_alpm_pkghash_find] at hold
  | cons e es ih =>
    rw [find_cons] at hold
    by_cases h : strval e.name = strval old.name
    · simp only [h, if_true, Option.some.injEq] at hold
      refine ⟨[], es, ?_, ?_, ?_⟩
      · simp [hold]
      · simp [_alpm_pkghash_replace, h]
      · simp
    · simp only [h, if_false] at hold
      obtain ⟨pre, post, h1, h2, h3⟩ := ih hold
      refine ⟨e :: pre, post, ?_, ?_, ?_⟩
      · simp [h1]
      · simp [_alpm_pkghash_replace, h, h2]
      · intro x hx
        rcases List.mem_cons.mp hx with hx | hx
        · rw [hx]; exact h
        · exact h3 x hx

theorem pkgcache_add_absent (vercmp : Option Buf → Option Buf → Int)
    (c : alpm_pkghash_t) (p : pkg) (h : _alpm_pkghash_find c p.name = none) :
    pkgcache_add vercmp c p = c ++ [p] := by
  simp [pkgcache_add, h, _alpm_pkghash_add]

theorem pkgcache_add_newer (vercmp : Option Buf → Option Buf → Int)
    (c : alpm_pkghash_t) (p old : pkg) (h : _alpm_pkghash_find c p.name = some old)
    (hv : vercmp p.version old.version = 0 ∨ vercmp p.version old.version = 1) :
    pkgcache_add vercmp c p = _alpm_pkghash_replace c p old := by
  simp [pkgcache_add, h, hv]

theorem pkgcache_add_older (vercmp : Option Buf → Option Buf → Int)
    (c : alpm_pkghash_t) (p old : pkg) (h : _alpm_pkghash_find c p.name = some old)
    (hv : ¬ (vercmp p.version old.version = 0 ∨ vercmp p.version old.version = 1)) :
    pkgcache_add vercmp c p = c := by
  simp [pkgcache_add, h, hv]

end Repose

namespace Repose

theorem name_unique {c : alpm_pkghash_t} (hnd : (c.map (fun e => strval e.name)).Nodup)
    {e1 e2 : pkg} (h1 : e1 ∈ c) (h2 : e2 ∈ c) (h : strval e1.name = strval e2.name) : e1 = e2 :=
  List.inj_on_of_nodup_map hnd h1 h2 h

theorem vercmp_refl (vercmp : Option Buf → Option Buf → Int)
    (hanti : ∀ a b, vercmp a b = - vercmp b a) (a : Option Buf) : vercmp a a = 0 := by
  have h := hanti a a
  omega

theorem cache_inv_step (vercmp : Option Buf → Option Buf → Int)
    (hrange : ∀ a b, vercmp a b = -1 ∨ vercmp a b = 0 ∨ vercmp a b = 1)
    (hanti : ∀ a b, vercmp a b = - vercmp b a)
    (htrans : ∀ a b c, 0 ≤ vercmp a b → 0 ≤ vercmp b c → 0 ≤ vercmp a c)
    (c : alpm_pkghash_t) (seen : List pkg) (p : pkg) (hinv : cache_inv vercmp c seen) :
    cache_inv vercmp (pkgcache_add vercmp c p) (seen ++ [p]) := by
  obtain ⟨hnd, hpres, hord⟩ := hinv
  cases hf : _alpm_pkghash_find c p.name with
  | none =>
    rw [pkgcache_add_absent vercmp c p hf]
    have hno := (find_none_iff c p.name).mp hf
    refine ⟨?_, ?_, ?_⟩
    · rw [List.map_append, List.nodup_append]
      refine ⟨hnd, by simp, ?_⟩
      intro n hn1 hn2
      simp only [List.map_cons, List.map_nil, List.mem_singleton] at hn2
      obtain ⟨e, he, hen⟩ := List.mem_map.mp hn1
      exact hno e he (hen.trans hn2)
    · intro q hq
      rcases List.mem_append.mp hq with hq | hq
      · obtain ⟨e, he, hen⟩ := hpres q hq
        exact ⟨e, List.mem_append_left _ he, hen⟩
      · simp only [List.mem_singleton] at hq
        exact ⟨p, by simp, by rw [hq]⟩
    · intro e he q hq hqe
      rcases List.mem_append.mp he with he | he
      · rcases List.mem_append.mp hq with hq | hq
        · exact hord e he q hq hqe
        · simp only [List.mem_singleton] at hq
          rw [hq] at hqe
          exact absurd hqe.symm (hno e he)
      · simp only [List.mem_singleton] at he
        rcases List.mem_append.mp hq with hq | hq
        · obtain ⟨e2, he2, hen2⟩ := hpres q hq
          rw [he] at hqe
          exact absurd (hen2.trans hqe) (hno e2 he2)
        · simp only [List.mem_singleton] at hq
          rw [he, hq, vercmp_refl vercmp hanti]
  | some old =>
    have hon : strval old.name = strval p.name := find_name hf
    have hoc : old ∈ c := find_mem hf
    by_cases hv : vercmp p.version old.version = 0 ∨ vercmp p.version old.version = 1
    · rw [pkgcache_add_newer vercmp c p old hf hv]
      have hf2 : _alpm_pkghash_find c old.name = some old := by
        rw [find_congr c hon]; exact hf
      obtain ⟨pre, post, hc, hr, _⟩ := replace_split c p old hf2
      have hge : 0 ≤ vercmp p.version old.version := by omega
      have hnd2 : ((_alpm_pkghash_replace c p old).map (fun e => strval e.name)).Nodup := by
        rw [hr]
        rw [hc] at hnd
        simpa [hon] using hnd
      have hmem : ∀ e ∈ _alpm_pkghash_replace c p old, e = p ∨ e ∈ c := by
        intro e he
        rw [hr] at he
        rw [hc]
        simp only [List.mem_append, List.mem_cons] at he ⊢
        tauto
      have hpin : p ∈ _alpm_pkghash_replace c p old := by rw [hr]; simp
      have hnew : ∀ q ∈ seen ++ [p], strval q.name = strval p.name → 0 ≤ vercmp p.version q.version := by
        intro q hq hqn
        rcases List.mem_append.mp hq with hq | hq
        · exact htrans _ _ _ hge (hord old hoc q hq (hqn.trans hon.symm))
        · simp only [List.mem_singleton] at hq
          rw [hq, vercmp_refl vercmp hanti]
      refine ⟨hnd2, ?_, ?_⟩
      · intro q hq
        rcases List.mem_append.mp hq with hq | hq
        · obtain ⟨e, he, hen⟩ := hpres q hq
          by_cases heo : strval e.name = strval old.name
          · exact ⟨p, hpin, by rw [← hon, ← heo, hen]⟩
          · refine ⟨e, ?_, hen⟩
            rw [hr]
            rw [hc] at he
            simp only [List.mem_append, List.mem_cons] at he ⊢
            rcases he with he | he | he
            · exact Or.inl he
            · rw [he] at heo; exact absurd rfl heo
            · exact Or.inr (Or.inr he)
        · simp only [List.mem_singleton] at hq
          exact ⟨p, hpin, by rw [hq]⟩
      · intro e he q hq hqe
        by_cases hep : strval e.name = strval p.name
        · have : e = p := name_unique hnd2 he hpin hep
          rw [this]
          exact hnew q hq (by rw [hqe, hep])
        · rcases hmem e he with h1 | h1
          · rw [h1] at hep; exact absurd rfl hep
          · rcases List.mem_append.mp hq with hq | hq
            · exact hord e h1 q hq hqe
            · simp only [List.mem_singleton] at hq
              rw [hq] at hqe
              exact absurd hqe.symm hep
    · rw [pkgcache_add_older vercmp c p old hf hv]
      have hlt : vercmp p.version old.version = -1 := by
        rcases hrange p.version old.version with h | h | h
        · exact h
        · exact absurd (Or.inl h) hv
        · exact absurd (Or.inr h) hv
      have hgt : 0 ≤ vercmp old.version p.version := by
        have := hanti old.version p.version
        omega
      refine ⟨hnd, ?_, ?_⟩
      · intro q hq
        rcases List.mem_append.mp hq with hq | hq
        · exact hpres q hq
        · simp only [List.mem_singleton] at hq
          exact ⟨old, hoc, by rw [hq, hon]⟩
      · intro e he q hq hqe
        rcases List.mem_append.mp hq with hq | hq
        · exact hord e he q hq hqe
        · simp only [List.mem_singleton] at hq
          rw [hq] at hqe
          have : e = old := name_unique hnd he hoc (hqe.symm.trans hon.symm)
          rw [this, hq]
          exact hgt

theorem cache_inv_fold (vercmp : Option Buf → Option Buf → Int)
    (hrange : ∀ a b, vercmp a b = -1 ∨ vercmp a b = 0 ∨ vercmp a b = 1)
    (hanti : ∀ a b, vercmp a b = - vercmp b a)
    (htrans : ∀ a b c, 0 ≤ vercmp a b → 0 ≤ vercmp b c → 0 ≤ vercmp a c)
    (offers : List pkg) (c : alpm_pkghash_t) (seen : List pkg)
    (hinv : cache_inv vercmp c seen) :
    cache_inv vercmp (offers.foldl (pkgcache_add vercmp) c) (seen ++ offers) := by
  induction offers generalizing c seen with
  | nil => simpa using hinv
  | cons p ps ih =>
    have h := ih (pkgcache_add vercmp c p) (seen ++ [p])
      (cache_inv_step vercmp hrange hanti htrans c seen p hinv)
    simpa using h

theorem vercmp_len_range (a b : Option Buf) :
    vercmp_len a b = -1 ∨ vercmp_len a b = 0 ∨ vercmp_len a b = 1 := by
  unfold vercmp_len
  split_ifs <;> simp

theorem vercmp_len_anti (a b : Option Buf) : vercmp_len a b = - vercmp_len b a := by
  unfold vercmp_len
  split_ifs <;> first | rfl | omega

theorem vercmp_len_trans (a b c : Option Buf) (h1 : 0 ≤ vercmp_len a b)
    (h2 : 0 ≤ vercmp_len b c) : 0 ≤ vercmp_len a c := by
  unfold vercmp_len at *
  split_ifs at * <;> omega

/-- C1: with `alpm_pkg_vercmp` a total order (values -1, 0, 1, antisymmetric,
transitive), after offering any sequence of records to `pkgcache_add` from the
empty cache, every record in the cache compares greater than or equal to every
offered record of its name. -/
theorem pkgcache_keeps_newest (vercmp : Option Buf → Option Buf → Int)
    (hrange : ∀ a b, vercmp a b = -1 ∨ vercmp a b = 0 ∨ vercmp a b = 1)
    (hanti : ∀ a b, vercmp a b = - vercmp b a)
    (htrans : ∀ a b c, 0 ≤ vercmp a b → 0 ≤ vercmp b c → 0 ≤ vercmp a c)
    (offers : List pkg) (stored : pkg) (hs : stored ∈ offer_all vercmp offers)
    (q : pkg) (hq : q ∈ offers) (hn : strval q.name = strval stored.name) :
    vercmp stored.version q.version = 0 ∨ vercmp stored.version q.version = 1 := by
  have hinv := cache_inv_fold vercmp hrange hanti htrans offers [] []
    ⟨by simp, by simp, by simp⟩
  have h := hinv.2.2 stored hs q (by simpa using hq) hn
  rcases hrange stored.version q.version with h1 | h1 | h1
  · omega
  · exact Or.inl h1
  · exact Or.inr h1

theorem pkgcache_keeps_newest_witness :
    vercmp_len (some [some 49, some 0]) (some [some 0]) = 0 ∨
    vercmp_len (some [some 49, some 0]) (some [some 0]) = 1 :=
  pkgcache_keeps_newest vercmp_len vercmp_len_range vercmp_len_anti vercmp_len_trans
    [{ name := some [some 97, some 0], version := some [some 0] },
     { name := some [some 97, some 0], version := some [some 49, some 0] }]
    { name := some [some 97, some 0], version := some [some 49, some 0] }
    (by decide)
    { name := some [some 97, some 0], version := some [some 0] }
    (by decide) rfl

end Repose

namespace Repose

/-- C2: for two records of one name whose versions compare unequal, with
`alpm_pkg_vercmp` returning -1, 0 or 1 antisymmetrically, offering them to
`pkgcache_add` from the empty cache in either order gives a cache holding exactly
one record, the one with the greater version. -/
theorem pkgcache_two_versions (vercmp : Option Buf → Option Buf → Int)
    (hrange : ∀ a b, vercmp a b = -1 ∨ vercmp a b = 0 ∨ vercmp a b = 1)
    (hanti : ∀ a b, vercmp a b = - vercmp b a)
    (a b : pkg) (hname : strval a.name = strval b.name) (hne : vercmp a.version b.version ≠ 0) :
    offer_all vercmp [a, b] = [if vercmp a.version b.version = 1 then a else b] ∧
    offer_all vercmp [b, a] = [if vercmp a.version b.version = 1 then a else b] ∧
    0 ≤ vercmp (if vercmp a.version b.version = 1 then a else b).version a.version ∧
    0 ≤ vercmp (if vercmp a.version b.version = 1 then a else b).version b.version := by
  have hab := hanti a.version b.version
  have hba := hrange b.version a.version
  have hra := vercmp_refl vercmp hanti a.version
  have hrb := vercmp_refl vercmp hanti b.version
  have hfa : _alpm_pkghash_find [a] b.name = some a := by
    rw [find_cons]; simp [hname]
  have hfb : _alpm_pkghash_find [b] a.name = some b := by
    rw [find_cons]; simp [hname]
  have h0 : ∀ x : pkg, pkgcache_add vercmp [] x = [x] := by
    intro x; simp [pkgcache_add, _alpm_pkghash_find, _alpm_pkghash_add]
  by_cases h1 : vercmp a.version b.version = 1
  · have h2 : vercmp b.version a.version = -1 := by omega
    have h3 : ¬ (vercmp b.version a.version = 0 ∨ vercmp b.version a.version = 1) := by
      omega
    refine ⟨?_, ?_, ?_, ?_⟩
    · simp only [offer_all, List.foldl_cons, List.foldl_nil, h0]
      rw [pkgcache_add_older vercmp [a] b a hfa h3]
      simp [h1]
    · simp only [offer_all, List.foldl_cons, List.foldl_nil, h0]
      rw [pkgcache_add_newer vercmp [b] a b hfb (Or.inr h1)]
      simp [_alpm_pkghash_replace, h1]
    · simp [h1, hra]
    · simp [h1]
  · have h2 : vercmp b.version a.version = 1 := by omega
    have h3 : ¬ (vercmp a.version b.version = 0 ∨ vercmp a.version b.version = 1) := by
      omega
    refine ⟨?_, ?_, ?_, ?_⟩
    · simp only [offer_all, List.foldl_cons, List.foldl_nil, h0]
      rw [pkgcache_add_newer vercmp [a] b a hfa (Or.inr h2)]
      simp [_alpm_pkghash_replace, h1]
    · simp only [offer_all, List.foldl_cons, List.foldl_nil, h0]
      rw [pkgcache_add_older vercmp [b] a b hfb h3]
      simp [h1]
    · simp [h1, h2]
    · simp [h1, hrb]

theorem pkgcache_two_versions_witness :
    offer_all vercmp_len
      [{ name := some [some 97, some 0], version := some [some 0] },
       { name := some [some 97, some 0], version := some [some 49, some 0] }]
      = [{ name := some [some 97, some 0], version := some [some 49, some 0] }] :=
  (pkgcache_two_versions vercmp_len vercmp_len_range vercmp_len_anti
    { name := some [some 97, some 0], version := some [some 0] }
    { name := some [some 97, some 0], version := some [some 49, some 0] }
    rfl (by decide)).1

/-- C3: when the cache holds `old` under the name of `p` and the version of `p`
compares equal to or greater than the version of `old`, `pkgcache_add` puts `p` in
the slot of `old`: `find` of the name returns `p` (also for equal versions), the
number of entries is unchanged, every other slot keeps its record and `find` of
every other name is unchanged. -/
theorem pkgcache_add_replaces (vercmp : Option Buf → Option Buf → Int)
    (cache : alpm_pkghash_t) (p old : pkg)
    (hold : _alpm_pkghash_find cache p.name = some old)
    (hv : vercmp p.version old.version = 0 ∨ vercmp p.version old.version = 1) :
    _alpm_pkghash_find (pkgcache_add vercmp cache p) p.name = some p ∧
    (pkgcache_add vercmp cache p).length = cache.length ∧
    (∀ n, strval n ≠ strval p.name →
      _alpm_pkghash_find (pkgcache_add vercmp cache p) n = _alpm_pkghash_find cache n) ∧
    (∃ pre post, cache = pre ++ old :: post ∧
      pkgcache_add vercmp cache p = pre ++ p :: post ∧ ∀ e ∈ pre, strval e.name ≠ strval p.name) := by
  have hon : strval old.name = strval p.name := find_name hold
  have hf2 : _alpm_pkghash_find cache old.name = some old := by
    rw [find_congr cache hon]; exact hold
  rw [pkgcache_add_newer vercmp cache p old hold hv]
  refine ⟨?_, length_replace cache p old, ?_, ?_⟩
  · rw [find_replace cache p old hon.symm, hon]
    simp [hold]
  · intro n hn
    rw [find_replace cache p old hon.symm]
    have : ¬ strval n = strval old.name := by rw [hon]; exact hn
    simp [this]
  · obtain ⟨pre, post, h1, h2, h3⟩ := replace_split cache p old hf2
    exact ⟨pre, post, h1, h2, fun e he => by rw [← hon]; exact h3 e he⟩

theorem pkgcache_add_replaces_witness :
    _alpm_pkghash_find
      (pkgcache_add vercmp_len
        [{ name := some [some 97, some 0], version := some [some 49, some 0] }]
        { name := some [some 97, some 0], version := some [some 50, some 0] })
      (some [some 97, some 0])
      = some { name := some [some 97, some 0], version := some [some 50, some 0] } :=
  (pkgcache_add_replaces vercmp_len
    [{ name := some [some 97, some 0], version := some [some 49, some 0] }]
    { name := some [some 97, some 0], version := some [some 50, some 0] }
    { name := some [some 97, some 0], version := some [some 49, some 0] }
    (by decide) (by decide)).1

/-- C4: when the cache holds `old` under the name of `p` and the version of `p`
compares less than the version of `old`, `pkgcache_add` returns the cache as it
was: `find` of the name still returns `old` and no entry is added, removed or
modified. -/
theorem pkgcache_add_discards_older (vercmp : Option Buf → Option Buf → Int)
    (cache : alpm_pkghash_t) (p old : pkg)
    (hold : _alpm_pkghash_find cache p.name = some old)
    (hv : vercmp p.version old.version < 0) :
    pkgcache_add vercmp cache p = cache ∧
    _alpm_pkghash_find (pkgcache_add vercmp cache p) p.name = some old := by
  have h : pkgcache_add vercmp cache p = cache :=
    pkgcache_add_older vercmp cache p old hold (by omega)
  exact ⟨h, by rw [h]; exact hold⟩

theorem pkgcache_add_discards_older_witness :
    pkgcache_add vercmp_len
      [{ name := some [some 97, some 0], version := some [some 49, some 0] }]
      { name := some [some 97, some 0], version := some [some 0] }
      = [{ name := some [some 97, some 0], version := some [some 49, some 0] }] :=
  (pkgcache_add_discards_older vercmp_len
    [{ name := some [some 97, some 0], version := some [some 49, some 0] }]
    { name := some [some 97, some 0], version := some [some 0] }
    { name := some [some 97, some 0], version := some [some 49, some 0] }
    (by decide) (by decide)).1

/-- C5: when the cache has no record under the name of `p`, `pkgcache_add`
inserts `p`: `find` of that name returns `p`, the number of entries grows by
exactly one, the earlier entries keep their slots and `find` of every other name
returns what it returned before. -/
theorem pkgcache_add_inserts (vercmp : Option Buf → Option Buf → Int)
    (cache : alpm_pkghash_t) (p : pkg)
    (habs : _alpm_pkghash_find cache p.name = none) :
    _alpm_pkghash_find (pkgcache_add vercmp cache p) p.name = some p ∧
    (pkgcache_add vercmp cache p).length = cache.length + 1 ∧
    (∀ n, strval n ≠ strval p.name →
      _alpm_pkghash_find (pkgcache_add vercmp cache p) n = _alpm_pkghash_find cache n) ∧
    cache <+: pkgcache_add vercmp cache p := by
  have h : pkgcache_add vercmp cache p = _alpm_pkghash_add cache p := by
    simp [pkgcache_add, habs]
  rw [h]
  refine ⟨?_, ?_, ?_, ?_⟩
  · rw [find_add, habs]; simp
  · simp [_alpm_pkghash_add]
  · intro n hn
    rw [find_add]
    have : ¬ strval p.name = strval n := fun h2 => hn h2.symm
    simp [this]
  · exact List.prefix_append cache [p]

theorem pkgcache_add_inserts_witness :
    _alpm_pkghash_find
      (pkgcache_add vercmp_len
        [{ name := some [some 97, some 0], version := some [some 49, some 0] }]
        { name := some [some 98, some 0], version := some [some 0] })
      (some [some 98, some 0])
      = some { name := some [some 98, some 0], version := some [some 0] } :=
  (pkgcache_add_inserts vercmp_len
    [{ name := some [some 97, some 0], version := some [some 49, some 0] }]
    { name := some [some 98, some 0], version := some [some 0] }
    (by decide)).1

end Repose

namespace Repose

/-! ## Strings in memory -/

theorem cstr_bytes (v : List Nat) (hv : ∀ c ∈ v, c ≠ 0) (rest : Buf) :
    cstr (bytes v ++ some 0 :: rest) = some v := by
  induction v with
  | nil => simp [bytes, cstr]
  | cons c t ih =>
    have hc : c ≠ 0 := hv c (by simp)
    have ht : ∀ x ∈ t, x ≠ 0 := fun x hx => hv x (by simp [hx])
    have h := ih ht
    simp only [bytes] at h
    simp [bytes, cstr, hc, h]

theorem cstr_split (entry : Buf) (v : List Nat) (h : cstr entry = some v) :
    (∃ rest, entry = bytes v ++ some 0 :: rest) ∧ ∀ c ∈ v, c ≠ 0 := by
  induction entry generalizing v with
  | nil => simp [cstr] at h
  | cons x m ih =>
    cases x with
    | none => simp [cstr] at h
    | some c =>
      by_cases hc : c = 0
      · simp only [cstr, hc, if_true, Option.some.injEq] at h
        subst h
        exact ⟨⟨m, by simp [bytes, hc]⟩, by simp⟩
      · simp only [cstr, hc, if_false, Option.map_eq_some'] at h
        obtain ⟨t, ht, hv⟩ := h
        obtain ⟨⟨rest, hr⟩, hz⟩ := ih t ht
        subst hv
        refine ⟨⟨rest, by simp [bytes, hr]⟩, ?_⟩
        intro x hx
        rcases List.mem_cons.mp hx with hx | hx
        · rw [hx]; exact hc
        · exact hz x hx

theorem poke_some (r : Buf) (i c : Nat) (h : i < r.length) :
    poke r i c = some (r.take i ++ some c :: r.drop (i + 1)) := by
  simp [poke, h, List.set_eq_take_append_cons_drop]

theorem strndup_loop_terminated (v : List Nat) (hv : ∀ c ∈ v, c ≠ 0) (rest r : Buf)
    (p n : Nat) (hn : v.length ≤ n) (hp : p + v.length < r.length) :
    strndup_loop (bytes v ++ some 0 :: rest) r p n
      = some (r.take p ++ bytes v ++ some 0 :: r.drop (p + v.length + 1)) := by
  induction v generalizing r p n with
  | nil =>
    have hp2 : p < r.length := by simpa using hp
    simp [bytes, strndup_loop, poke_some r p 0 hp2]
  | cons c t ih =>
    have hc : c ≠ 0 := hv c (by simp)
    have ht : ∀ x ∈ t, x ≠ 0 := fun x hx => hv x (by simp [hx])
    simp only [List.length_cons] at hn hp
    have hp2 : p < r.length := by omega
    have hn2 : n > 0 := by omega
    have hstep : strndup_loop (bytes (c :: t) ++ some 0 :: rest) r p n
        = strndup_loop (bytes t ++ some 0 :: rest)
            (r.take p ++ some c :: r.drop (p + 1)) (p + 1) (n - 1) := by
      simp [bytes, strndup_loop, hc, hn2, poke_some r p c hp2]
    rw [hstep, ih ht (r.take p ++ some c :: r.drop (p + 1)) (p + 1) (n - 1) (by omega)
      (by simp; omega)]
    have hlen : (List.take p r).length = p := by simp; omega
    have h1 : List.take (p + 1) (List.take p r ++ some c :: List.drop (p + 1) r)
        = List.take p r ++ [some c] := by
      rw [List.take_append_eq_append_take]
      simp [hlen]
    have h2 : List.drop (p + 1 + t.length + 1)
        (List.take p r ++ some c :: List.drop (p + 1) r)
        = List.drop (p + (t.length + 1) + 1) r := by
      rw [List.drop_append_eq_append_drop]
      have h3 : List.drop (p + 1 + t.length + 1) (List.take p r) = [] := by
        apply List.drop_eq_nil_of_le; rw [hlen]; omega
      rw [h3, hlen]
      have h4 : p + 1 + t.length + 1 - p = (t.length + 1) + 1 := by omega
      rw [h4]
      simp only [List.nil_append, List.drop_succ_cons, List.drop_drop]
      congr 1
      omega
    rw [h1, h2]
    simp [bytes]

/-- The shim on a string terminated within `n + 1` bytes: the copy is a buffer of
`n + 1` bytes that denotes the same string. -/
theorem strndup_terminated (entry : Buf) (n : Nat) (v : List Nat)
    (h : cstr entry = some v) (hn : v.length ≤ n) :
    ∃ buf, strndup entry n = some buf ∧ cstr buf = some v ∧ buf.length = n + 1 := by
  obtain ⟨⟨rest, hr⟩, hz⟩ := cstr_split entry v h
  have hm : (malloc (n + 1)).length = n + 1 := by simp [malloc]
  have hpk := poke_some (malloc (n + 1)) n 0 (by omega)
  have hl : (List.take n (malloc (n + 1)) ++ some 0 :: List.drop (n + 1) (malloc (n + 1))).length
      = n + 1 := by simp [hm]
  have hs : strndup entry n = some (List.take 0
      (List.take n (malloc (n + 1)) ++ some 0 :: List.drop (n + 1) (malloc (n + 1)))
      ++ bytes v ++ some 0 :: List.drop (0 + v.length + 1)
      (List.take n (malloc (n + 1)) ++ some 0 :: List.drop (n + 1) (malloc (n + 1)))) := by
    rw [strndup, hpk, hr]
    simp only
    rw [strndup_loop_terminated v hz rest _ 0 n hn (by rw [hl]; omega)]
  refine ⟨_, hs, ?_, ?_⟩
  · simp only [List.take_zero, List.nil_append]
    exact cstr_bytes v hz _
  · simp [hm, bytes]
    omega

/-- The shim on a source that goes on past `n` bytes: the store after the loop
puts the byte at offset `n` of the source where the terminator was, and the buffer
of `n + 1` bytes denotes no string. -/
theorem strndup_overlong_example :
    strndup (bytes [102, 111, 111, 98, 0]) 3 = some (bytes [102, 111, 111, 98]) ∧
    cstr (bytes [102, 111, 111, 98]) = none ∧
    strndup (bytes [102, 111, 111]) 3 = none := by
  decide

theorem strncmp_same (v : List Nat) (x y : Buf) (n : Nat) :
    strncmp (bytes v ++ some 0 :: x) (bytes v ++ some 0 :: y) n = some 0 := by
  induction v generalizing n with
  | nil => cases n <;> simp [bytes, strncmp]
  | cons c t ih =>
    cases n with
    | zero => simp [strncmp]
    | succ m =>
      have h := ih m
      simp only [bytes] at h
      by_cases hc : c = 0 <;> simp [bytes, strncmp, hc, h]

end Repose

namespace Repose

/-! ## The dispatcher -/

theorem set_identity_first (entry : Buf) (len : Nat) (msg : String) (buf : Buf)
    (hs : strndup entry len = some buf) :
    set_identity entry len none msg = .ok (some buf) := by
  simp [set_identity, pkg_set_string, hs]

theorem set_identity_again (entry : Buf) (len : Nat) (msg : String) (buf : Buf)
    (v : List Nat) (he : cstr entry = some v) (hb : cstr buf = some v) :
    set_identity entry len (some buf) msg = .ok (some buf) := by
  obtain ⟨⟨r1, h1⟩, _⟩ := cstr_split entry v he
  obtain ⟨⟨r2, h2⟩, _⟩ := cstr_split buf v hb
  have h3 : strncmp entry buf len = some 0 := by
    rw [h1, h2]; exact strncmp_same v r1 r2 len
  simp [set_identity, strneq, h3]

/-- C6: with the name (respectively version) already set to "foobar", the value
"foo" given with len 3 differs from it, yet `package_set` with `PKG_PKGNAME`
(respectively `PKG_VERSION`) returns and keeps the record as it was: the bounded
comparison stops after the three bytes of the new value, so a proper prefix of the
stored string is accepted and the fatal mismatch is not raised. -/
theorem package_set_accepts_prefix :
    package_set L32 { name := some (bytes [102, 111, 111, 98, 97, 114, 0]) }
        .PKG_PKGNAME (bytes [102, 111, 111, 0]) 3
      = .ok { name := some (bytes [102, 111, 111, 98, 97, 114, 0]) } ∧
    package_set L32 { version := some (bytes [102, 111, 111, 98, 97, 114, 0]) }
        .PKG_VERSION (bytes [102, 111, 111, 0]) 3
      = .ok { version := some (bytes [102, 111, 111, 98, 97, 114, 0]) } ∧
    cstr (bytes [102, 111, 111, 0]) = some [102, 111, 111] ∧
    cstr (bytes [102, 111, 111, 98, 97, 114, 0]) = some [102, 111, 111, 98, 97, 114] := by
  decide

/-- The identity fields on an entry whose string ends within `len + 1` bytes: on a
record whose name (respectively version) is not set, `package_set` with
`PKG_PKGNAME` (respectively `PKG_VERSION`) sets the field to that string and
changes nothing else; the same call made again returns and leaves the whole record
as the first call left it. -/
theorem identity_write_idempotent (L : Limits) (p : pkg) (entry : Buf) (len : Nat)
    (v : List Nat) (he : cstr entry = some v) (hl : v.length ≤ len)
    (hn : p.name = none) (hv : p.version = none) :
    (∃ buf, cstr buf = some v ∧
      package_set L p .PKG_PKGNAME entry len = .ok { p with name := some buf } ∧
      package_set L { p with name := some buf } .PKG_PKGNAME entry len
        = .ok { p with name := some buf }) ∧
    (∃ buf, cstr buf = some v ∧
      package_set L p .PKG_VERSION entry len = .ok { p with version := some buf } ∧
      package_set L { p with version := some buf } .PKG_VERSION entry len
        = .ok { p with version := some buf }) := by
  obtain ⟨buf, hs, hb, _⟩ := strndup_terminated entry len v he hl
  refine ⟨⟨buf, hb, ?_, ?_⟩, ⟨buf, hb, ?_, ?_⟩⟩
  · simp [package_set, hn, set_identity_first entry len _ buf hs, Run.map]
  · simp [package_set, set_identity_again entry len _ buf v he hb, Run.map]
  · simp [package_set, hv, set_identity_first entry len _ buf hs, Run.map]
  · simp [package_set, set_identity_again entry len _ buf v he hb, Run.map]

theorem identity_write_idempotent_witness :
    ∃ buf, cstr buf = some [102, 111, 111] ∧
      package_set L32 {} .PKG_PKGNAME (bytes [102, 111, 111, 0]) 3
        = .ok { name := some buf } ∧
      package_set L32 { name := some buf } .PKG_PKGNAME (bytes [102, 111, 111, 0]) 3
        = .ok { name := some buf } :=
  (identity_write_idempotent L32 {} (bytes [102, 111, 111, 0]) 3 [102, 111, 111]
    (by decide) (by decide) rfl rfl).1

/-- C7: on the empty record, `package_set` with `PKG_PKGNAME` (respectively
`PKG_VERSION`) and the value "foo" given as the entry "foob" with len 3 returns,
but the field it sets is the four bytes 'f', 'o', 'o', 'b' without a terminator,
which is not the string "foo"; the same call made again returns and leaves that
record as it was. -/
theorem package_set_identity_unterminated :
    package_set L32 {} .PKG_PKGNAME (bytes [102, 111, 111, 98, 0]) 3
      = .ok { name := some (bytes [102, 111, 111, 98]) } ∧
    package_set L32 {} .PKG_VERSION (bytes [102, 111, 111, 98, 0]) 3
      = .ok { version := some (bytes [102, 111, 111, 98]) } ∧
    strval (some (bytes [102, 111, 111, 98])) = none ∧
    strval (some (bytes [102, 111, 111, 98])) ≠ some [102, 111, 111] ∧
    package_set L32 { name := some (bytes [102, 111, 111, 98]) } .PKG_PKGNAME
        (bytes [102, 111, 111, 98, 0]) 3
      = .ok { name := some (bytes [102, 111, 111, 98]) } ∧
    package_set L32 { version := some (bytes [102, 111, 111, 98]) } .PKG_VERSION
        (bytes [102, 111, 111, 98, 0]) 3
      = .ok { version := some (bytes [102, 111, 111, 98]) } := by
  decide

theorem package_set_list_step (L : Limits) (p : pkg) (k : pkg_entry)
    (hk : k ∈ list_keys) (entry : Buf) (len : Nat) (buf : Buf)
    (hs : strndup entry len = some buf) :
    package_set L p k entry len = .ok (put_list k p (get_list k p ++ [buf])) := by
  simp only [list_keys, List.mem_cons, List.mem_singleton, List.not_mem_nil, or_false]
    at hk
  rcases hk with h | h | h | h | h | h | h | h | h <;> subst h <;>
    simp [package_set, pkg_append_list, alpm_list_add, hs, Run.map, put_list, get_list]

theorem get_put_list (k : pkg_entry) (hk : k ∈ list_keys) (p : pkg) (x : List Buf) :
    get_list k (put_list k p x) = x := by
  simp only [list_keys, List.mem_cons, List.mem_singleton, List.not_mem_nil, or_false]
    at hk
  rcases hk with h | h | h | h | h | h | h | h | h <;> subst h <;> rfl

theorem put_put_list (k : pkg_entry) (p : pkg) (x y : List Buf) :
    put_list k (put_list k p x) y = put_list k p y := by
  cases k <;> rfl

theorem put_get_list (k : pkg_entry) (p : pkg) : put_list k p (get_list k p) = p := by
  cases k <;> rfl

/-- The list fields on entries whose strings end within `len + 1` bytes: for every
list-field key and every sequence of such entries dispatched to it through
`package_set`, the calls all return, the list of the key is the earlier list
followed by the strings in order (same length, same order, duplicates kept) and no
other field changes. -/
theorem list_field_keeps_sequence (L : Limits) (p : pkg) (k : pkg_entry)
    (hk : k ∈ list_keys) (entries : List (Buf × Nat))
    (h : ∀ e ∈ entries, ∃ v, cstr e.1 = some v ∧ v.length ≤ e.2) :
    ∃ bufs, package_set_all L p k entries = .ok (put_list k p (get_list k p ++ bufs)) ∧
      bufs.map cstr = entries.map (fun e => cstr e.1) := by
  induction entries generalizing p with
  | nil => exact ⟨[], by simp [package_set_all, put_get_list], rfl⟩
  | cons e es ih =>
    obtain ⟨v, hv, hl⟩ := h e (by simp)
    obtain ⟨buf, hs, hb, _⟩ := strndup_terminated e.1 e.2 v hv hl
    obtain ⟨bufs, h1, h2⟩ := ih (put_list k p (get_list k p ++ [buf]))
      (fun x hx => h x (by simp [hx]))
    refine ⟨buf :: bufs, ?_, ?_⟩
    · simp only [package_set_all, package_set_list_step L p k hk e.1 e.2 buf hs, Run.bind]
      rw [h1, get_put_list k hk, put_put_list]
      simp
    · simp [h2, hb, hv]

theorem list_field_keeps_sequence_witness :
    ∃ bufs, package_set_all L32 {} .PKG_DEPENDS
        [(bytes [97, 0], 1), (bytes [97, 0], 1)]
        = .ok (put_list .PKG_DEPENDS {} (get_list .PKG_DEPENDS {} ++ bufs)) ∧
      bufs.map cstr = [(bytes [97, 0], 1), (bytes [97, 0], 1)].map (fun e => cstr e.1) :=
  list_field_keeps_sequence L32 {} .PKG_DEPENDS (by decide)
    [(bytes [97, 0], 1), (bytes [97, 0], 1)] (by
      intro e he
      simp only [List.mem_cons, List.mem_singleton, List.not_mem_nil, or_false, or_self]
        at he
      subst he
      exact ⟨[97], by decide, by decide⟩)

/-- C8: on the empty record, two `depends` values "foo", each given as the entry
"foob" with len 3, are both appended, but each element of the list is the four
bytes 'f', 'o', 'o', 'b' without a terminator: the list has two elements in
order, and neither is the string "foo" that was dispatched. -/
theorem package_set_list_unterminated :
    package_set_all L32 {} .PKG_DEPENDS
        [(bytes [102, 111, 111, 98, 0], 3), (bytes [102, 111, 111, 98, 0], 3)]
      = .ok { depends := [bytes [102, 111, 111, 98], bytes [102, 111, 111, 98]] } ∧
    [bytes [102, 111, 111, 98], bytes [102, 111, 111, 98]].map cstr = [none, none] ∧
    [bytes [102, 111, 111, 98], bytes [102, 111, 111, 98]].map cstr
      ≠ [some [102, 111, 111], some [102, 111, 111]] := by
  decide

theorem package_set_string_step (L : Limits) (p : pkg) (k : pkg_entry)
    (hk : k ∈ string_keys) (entry : Buf) (len : Nat) :
    package_set L p k entry len
      = match strndup entry len with
        | none => .fault
        | some buf => .ok (put_string k p (some buf)) := by
  simp only [string_keys, List.mem_cons, List.mem_singleton, List.not_mem_nil, or_false]
    at hk
  rcases hk with h | h | h | h | h | h | h | h <;> subst h <;>
    cases hs : strndup entry len <;>
    simp [package_set, pkg_set_string, hs, Run.map, put_string]

theorem put_put_string (k : pkg_entry) (p : pkg) (x y : Option Buf) :
    put_string k (put_string k p x) y = put_string k p y := by
  cases k <;> rfl

/-- C9 (as amended): for every string-field key, every record and every
(entry, len) where the string at `entry` ends within `len + 1` bytes, `package_set`
returns and stores in that field a fresh buffer of `len + 1` bytes holding the
string at `entry` (the bytes before its first terminator); no other field changes,
and when the record came from an earlier write of the same key the earlier value
is replaced. -/
theorem string_field_stores_string (L : Limits) (p : pkg) (k : pkg_entry)
    (hk : k ∈ string_keys) (entry : Buf) (len : Nat) (v : List Nat)
    (he : cstr entry = some v) (hl : v.length ≤ len) :
    ∃ buf, cstr buf = some v ∧ buf.length = len + 1 ∧
      package_set L p k entry len = .ok (put_string k p (some buf)) ∧
      ∀ p0 e0 l0, package_set L p0 k e0 l0 = .ok p →
        package_set L p k entry len = .ok (put_string k p0 (some buf)) := by
  obtain ⟨buf, hs, hb, hlen⟩ := strndup_terminated entry len v he hl
  have h1 : package_set L p k entry len = .ok (put_string k p (some buf)) := by
    rw [package_set_string_step L p k hk, hs]
  refine ⟨buf, hb, hlen, h1, ?_⟩
  intro p0 e0 l0 h0
  rw [package_set_string_step L p0 k hk] at h0
  cases h2 : strndup e0 l0 with
  | none => simp [h2] at h0
  | some b0 =>
    simp only [h2, Run.ok.injEq] at h0
    rw [h1, ← h0, put_put_string]

theorem string_field_stores_string_witness :
    ∃ buf, cstr buf = some [97] ∧ buf.length = 3 + 1 ∧
      package_set L32 {} .PKG_URL (bytes [97, 0, 98]) 3
        = .ok (put_string .PKG_URL {} (some buf)) ∧
      ∀ p0 e0 l0, package_set L32 p0 .PKG_URL e0 l0 = .ok {} →
        package_set L32 {} .PKG_URL (bytes [97, 0, 98]) 3
          = .ok (put_string .PKG_URL p0 (some buf)) :=
  string_field_stores_string L32 {} .PKG_URL (by decide) (bytes [97, 0, 98]) 3 [97]
    (by decide) (by decide)

/-- C9 (counterexample): with entry holding the three bytes 'a', NUL, 'b' and
len 3, `package_set` with `PKG_URL` returns, and the url field holds the string
"a": the copy stops at the terminator, so the field does not hold the first three
bytes of entry. -/
theorem string_field_stops_at_terminator :
    package_set L32 {} .PKG_URL (bytes [97, 0, 98]) 3
      = .ok { url := some [some 97, some 0, none, some 0] } ∧
    cstr [some 97, some 0, none, some 0] = some [97] ∧
    ¬ ∃ buf, package_set L32 {} .PKG_URL (bytes [97, 0, 98]) 3 = .ok { url := some buf } ∧
        (cstr buf = some [97, 0, 98] ∨ buf.take 3 = bytes [97, 0, 98]) := by
  have h : package_set L32 {} .PKG_URL (bytes [97, 0, 98]) 3
      = .ok { url := some [some 97, some 0, none, some 0] } := by decide
  refine ⟨h, by decide, ?_⟩
  rintro ⟨buf, hb, hc⟩
  rw [h] at hb
  have hb2 : buf = [some 97, some 0, none, some 0] := by
    have := congrArg (fun r => match r with | Run.ok q => q.url | _ => none) hb
    simpa using this.symm
  subst hb2
  revert hc
  decide

end Repose

namespace Repose

/-! ## Numbers -/

theorem parse_size_cases (L : Limits) (str : List Nat) (out : Nat) :
    ((skip_sign (str.dropWhile isspace)).takeWhile isdigit ≠ [] ∧
      (skip_sign (str.dropWhile isspace)).dropWhile isdigit = [] ∧
      digits_value ((skip_sign (str.dropWhile isspace)).takeWhile isdigit) ≤ L.ULONG_MAX ∧
      (strtoul L.ULONG_MAX str).1 ≤ L.SIZE_MAX ∧
      (parse_size L str out).1 = 0 ∧
      (parse_size L str out).2.1 = (strtoul L.ULONG_MAX str).1) ∨
    (¬ ((skip_sign (str.dropWhile isspace)).takeWhile isdigit ≠ [] ∧
      (skip_sign (str.dropWhile isspace)).dropWhile isdigit = [] ∧
      digits_value ((skip_sign (str.dropWhile isspace)).takeWhile isdigit) ≤ L.ULONG_MAX ∧
      (strtoul L.ULONG_MAX str).1 ≤ L.SIZE_MAX) ∧
      (parse_size L str out).1 = -1 ∧
      (parse_size L str out).2.1 = out) := by
  by_cases h0 : str = []
  · subst h0
    right
    simp [parse_size, xstrtoul, skip_sign]
  by_cases h1 : (skip_sign (str.dropWhile isspace)).takeWhile isdigit = []
  · right
    simp [parse_size, xstrtoul, strtoul, h0, h1]
  by_cases h2 : digits_value ((skip_sign (str.dropWhile isspace)).takeWhile isdigit)
      > L.ULONG_MAX
  · right
    refine ⟨fun h => by omega, ?_, ?_⟩ <;> simp [parse_size, xstrtoul, strtoul, h0, h1, h2]
  have hlen : ((skip_sign (str.dropWhile isspace)).dropWhile isdigit).length
      < str.length := by
    have ha : ((skip_sign (str.dropWhile isspace)).dropWhile isdigit).length
        < (skip_sign (str.dropWhile isspace)).length := by
      have hh := List.takeWhile_append_dropWhile isdigit (skip_sign (str.dropWhile isspace))
      have hl := congrArg List.length hh
      rw [List.length_append] at hl
      have : 0 < ((skip_sign (str.dropWhile isspace)).takeWhile isdigit).length :=
        List.length_pos.mpr h1
      omega
    have hb : (skip_sign (str.dropWhile isspace)).length ≤ (str.dropWhile isspace).length := by
      cases hs : str.dropWhile isspace with
      | nil => simp [skip_sign]
      | cons c t =>
        simp only [skip_sign]
        split_ifs <;> simp
    have hc : (str.dropWhile isspace).length ≤ str.length :=
      (List.dropWhile_sublist isspace).length_le
    omega
  have h6 : ¬ (0 = str.length) := fun h => h0 (List.length_eq_zero.mp h.symm)
  by_cases h3 : (skip_sign (str.dropWhile isspace)).dropWhile isdigit = []
  · have hx : xstrtoul L.ULONG_MAX str 0 = (0, (strtoul L.ULONG_MAX str).1, none) := by
      by_cases h4 : (str.dropWhile isspace).head? = some 45 <;>
        simp [xstrtoul, strtoul, h0, h1, h2, h3, h4, h6]
    by_cases h5 : (strtoul L.ULONG_MAX str).1 ≤ L.SIZE_MAX
    · left
      refine ⟨h1, h3, by omega, h5, ?_, ?_⟩ <;> simp [parse_size, hx, not_lt.mpr h5]
    · right
      refine ⟨fun h => h5 h.2.2.2, ?_, ?_⟩ <;> simp [parse_size, hx, lt_of_not_le h5]
  · right
    have hx : (xstrtoul L.ULONG_MAX str 0).1 = -1 := by
      by_cases h4 : (str.dropWhile isspace).head? = some 45 <;>
        simp [xstrtoul, strtoul, h0, h1, h2, h3, h4]
    refine ⟨fun h => h3 h.2.1, ?_, ?_⟩ <;> simp [parse_size, hx]

end Repose

namespace Repose

theorem isdigit_not_space (c : Nat) (h : isdigit c = true) : isspace c = false := by
  simp only [isdigit, Bool.and_eq_true, decide_eq_true_eq] at h
  simp only [isspace, Bool.or_eq_false_iff, beq_eq_false_iff_ne, Bool.and_eq_false_iff,
    decide_eq_false_iff_not]
  omega

theorem isdigit_not_sign (c : Nat) (h : isdigit c = true) : ¬ (c = 45 ∨ c = 43) := by
  simp only [isdigit, Bool.and_eq_true, decide_eq_true_eq] at h
  omega

theorem strtoul_shape (ws sg ds : List Nat) (hws : ∀ c ∈ ws, isspace c = true)
    (hsg : sg = [] ∨ sg = [43] ∨ sg = [45]) (hne : ds ≠ [])
    (hds : ∀ c ∈ ds, isdigit c = true) :
    (ws ++ sg ++ ds).dropWhile isspace = sg ++ ds ∧
    skip_sign (sg ++ ds) = ds ∧
    ((sg ++ ds).head? = some 45 ↔ sg = [45]) ∧
    ds.takeWhile isdigit = ds ∧ ds.dropWhile isdigit = [] := by
  obtain ⟨d, dt, hd⟩ := List.exists_cons_of_ne_nil hne
  have hdd : isdigit d = true := hds d (by simp [hd])
  have hns := isdigit_not_space d hdd
  have hsn := isdigit_not_sign d hdd
  have h45 : ¬ d = 45 := fun h => hsn (Or.inl h)
  refine ⟨?_, ?_, ?_, List.takeWhile_eq_self_iff.mpr hds, List.dropWhile_eq_nil_iff.mpr hds⟩
  · rw [List.append_assoc, List.dropWhile_append_of_pos hws]
    rcases hsg with h | h | h <;> subst h
    · simp [hd, List.dropWhile_cons, hns]
    · simp [List.dropWhile_cons, isspace]
    · simp [List.dropWhile_cons, isspace]
  · rcases hsg with h | h | h <;> subst h
    · simp [hd, skip_sign, hsn]
    · simp [skip_sign]
    · simp [skip_sign]
  · rcases hsg with h | h | h <;> subst h
    · simp [hd, h45]
    · simp
    · simp

theorem strtoul_unshape (str : List Nat)
    (h1 : (skip_sign (str.dropWhile isspace)).takeWhile isdigit ≠ [])
    (h3 : (skip_sign (str.dropWhile isspace)).dropWhile isdigit = []) :
    ∃ ws sg ds, str = ws ++ sg ++ ds ∧ (∀ c ∈ ws, isspace c = true) ∧
      (sg = [] ∨ sg = [43] ∨ sg = [45]) ∧ ds ≠ [] ∧ (∀ c ∈ ds, isdigit c = true) ∧
      ds = (skip_sign (str.dropWhile isspace)).takeWhile isdigit ∧
      ((str.dropWhile isspace).head? = some 45 ↔ sg = [45]) := by
  have hsplit := List.takeWhile_append_dropWhile isspace str
  have hws : ∀ c ∈ str.takeWhile isspace, isspace c = true :=
    fun c hc => List.mem_takeWhile_imp hc
  have ht := List.takeWhile_append_dropWhile isdigit (skip_sign (str.dropWhile isspace))
  rw [h3, List.append_nil] at ht
  have hdig : ∀ c ∈ (skip_sign (str.dropWhile isspace)).takeWhile isdigit,
      isdigit c = true := fun c hc => List.mem_takeWhile_imp hc
  cases hs : str.dropWhile isspace with
  | nil =>
    rw [hs] at h1
    simp [skip_sign] at h1
  | cons c t =>
    rw [hs] at ht hsplit
    by_cases hc : c = 45 ∨ c = 43
    · have hk : skip_sign (c :: t) = t := by simp [skip_sign, hc]
      rw [hk] at ht
      refine ⟨str.takeWhile isspace, [c], t, ?_, hws, ?_, ?_, ?_, ?_, ?_⟩
      · rw [List.append_assoc]; simpa using hsplit.symm
      · rcases hc with h | h <;> simp [h]
      · intro h
        apply h1
        rw [hs, hk, h]
        rfl
      · intro x hx
        apply hdig
        rw [hs, hk, ht]
        exact hx
      · rw [hk, ht]
      · simp
    · have hk : skip_sign (c :: t) = c :: t := by simp [skip_sign, hc]
      rw [hk] at ht
      have h45 : ¬ c = 45 := fun h => hc (Or.inl h)
      refine ⟨str.takeWhile isspace, [], c :: t, ?_, hws, Or.inl rfl, by simp, ?_, ?_, ?_⟩
      · simpa using hsplit.symm
      · intro x hx
        apply hdig
        rw [hs, hk, ht]
        exact hx
      · rw [hk, ht]
      · simp [h45]

theorem strtoul_value (umax : Nat) (str : List Nat)
    (h1 : (skip_sign (str.dropWhile isspace)).takeWhile isdigit ≠ [])
    (h2 : digits_value ((skip_sign (str.dropWhile isspace)).takeWhile isdigit) ≤ umax) :
    (strtoul umax str).1
      = if (str.dropWhile isspace).head? = some 45 then
          (umax + 1 - digits_value ((skip_sign (str.dropWhile isspace)).takeWhile isdigit))
            % (umax + 1)
        else digits_value ((skip_sign (str.dropWhile isspace)).takeWhile isdigit) := by
  by_cases h4 : (str.dropWhile isspace).head? = some 45 <;>
    simp [strtoul, h1, not_lt.mpr h2, h4]

/-- C10 (as amended): `parse_size(str)` returns 0 exactly when `str` is, from
its start to its end, optional white space, an optional `+` or `-`, and a
non-empty run of decimal digits, with the digits' value at most `ULONG_MAX` and
the result at most `SIZE_MAX`; the output is then the digits' value, or for `-`
its negation modulo `ULONG_MAX + 1`.  Every other call returns -1 and leaves the
output unchanged. -/
theorem parse_size_accepts (L : Limits) (str : List Nat) (out : Nat) :
    (∀ x, ((parse_size L str out).1 = 0 ∧ (parse_size L str out).2.1 = x) ↔
      ∃ ws sg ds, str = ws ++ sg ++ ds ∧ (∀ c ∈ ws, isspace c = true) ∧
        (sg = [] ∨ sg = [43] ∨ sg = [45]) ∧ ds ≠ [] ∧ (∀ c ∈ ds, isdigit c = true) ∧
        digits_value ds ≤ L.ULONG_MAX ∧
        x = (if sg = [45] then (L.ULONG_MAX + 1 - digits_value ds) % (L.ULONG_MAX + 1)
             else digits_value ds) ∧
        x ≤ L.SIZE_MAX) ∧
    ((parse_size L str out).1 ≠ 0 →
      (parse_size L str out).1 = -1 ∧ (parse_size L str out).2.1 = out) := by
  refine ⟨?_, ?_⟩
  · intro x
    constructor
    · rintro ⟨hrc, hx⟩
      rcases parse_size_cases L str out with ⟨h1, h3, h2, h5, _, hv⟩ | ⟨_, hf, _⟩
      · obtain ⟨ws, sg, ds, hstr, hws, hsg, hne, hds, hdeq, hneg⟩ :=
          strtoul_unshape str h1 h3
        have hval := strtoul_value L.ULONG_MAX str h1 h2
        refine ⟨ws, sg, ds, hstr, hws, hsg, hne, hds, by rw [hdeq]; exact h2, ?_, ?_⟩
        · rw [← hx, hv, hval, hdeq]
          by_cases h45 : sg = [45]
          · simp [h45, hneg.mpr h45]
          · have : ¬ (str.dropWhile isspace).head? = some 45 := fun h => h45 (hneg.mp h)
            simp [h45, this]
        · rw [← hx, hv]; exact h5
      · rw [hf] at hrc
        exact absurd hrc (by decide)
    · rintro ⟨ws, sg, ds, hstr, hws, hsg, hne, hds, hu, hx, hs⟩
      obtain ⟨e1, e2, e3, e4, e5⟩ := strtoul_shape ws sg ds hws hsg hne hds
      have g1 : (skip_sign (str.dropWhile isspace)).takeWhile isdigit = ds := by
        rw [hstr, e1, e2, e4]
      have g3 : (skip_sign (str.dropWhile isspace)).dropWhile isdigit = [] := by
        rw [hstr, e1, e2, e5]
      have h1 : (skip_sign (str.dropWhile isspace)).takeWhile isdigit ≠ [] := by
        rw [g1]; exact hne
      have h2 : digits_value ((skip_sign (str.dropWhile isspace)).takeWhile isdigit)
          ≤ L.ULONG_MAX := by rw [g1]; exact hu
      have hval := strtoul_value L.ULONG_MAX str h1 h2
      have hxv : (strtoul L.ULONG_MAX str).1 = x := by
        rw [hval, g1, hx]
        have hh : ((str.dropWhile isspace).head? = some 45) ↔ sg = [45] := by
          rw [hstr, e1]; exact e3
        by_cases h45 : sg = [45]
        · simp [h45, hh.mpr h45]
        · have : ¬ (str.dropWhile isspace).head? = some 45 := fun h => h45 (hh.mp h)
          simp [h45, this]
      rcases parse_size_cases L str out with ⟨_, _, _, _, hrc, hv⟩ | ⟨hnot, _, _⟩
      · exact ⟨hrc, by rw [hv, hxv]⟩
      · exact absurd ⟨h1, g3, h2, by rw [hxv]; exact hs⟩ hnot
  · intro hne
    rcases parse_size_cases L str out with ⟨_, _, _, _, hrc, _⟩ | ⟨_, hf, ho⟩
    · exact absurd hrc hne
    · exact ⟨hf, ho⟩

/-- C10 (counterexample): on a platform with 32-bit `unsigned long` and `size_t`,
`parse_size("-1")` returns 0 and stores 4294967295, although the string starts
with a sign and is not a sequence of decimal digits only. -/
theorem parse_size_accepts_minus_one :
    parse_size L32 [45, 49] 7 = (0, 4294967295, none) ∧
    ¬ (∀ c ∈ [45, 49], isdigit c = true) := by
  decide

end Repose

namespace Repose

/-! ## Timestamps -/

theorem parse_time_cases (L : Limits) (str : List Nat) (out : Nat) :
    ((skip_sign (str.dropWhile isspace)).takeWhile isdigit ≠ [] ∧
      (skip_sign (str.dropWhile isspace)).dropWhile isdigit = [] ∧
      digits_value ((skip_sign (str.dropWhile isspace)).takeWhile isdigit) ≤ L.ULONG_MAX ∧
      (strtoul L.ULONG_MAX str).1 ≤ L.INT_MAX ∧
      (parse_time L str out).1 = 0 ∧
      (parse_time L str out).2.1 = (strtoul L.ULONG_MAX str).1) ∨
    (¬ ((skip_sign (str.dropWhile isspace)).takeWhile isdigit ≠ [] ∧
      (skip_sign (str.dropWhile isspace)).dropWhile isdigit = [] ∧
      digits_value ((skip_sign (str.dropWhile isspace)).takeWhile isdigit) ≤ L.ULONG_MAX ∧
      (strtoul L.ULONG_MAX str).1 ≤ L.INT_MAX) ∧
      (parse_time L str out).1 = -1 ∧
      (parse_time L str out).2.1 = out) := by
  by_cases h0 : str = []
  · subst h0
    right
    simp [parse_time, xstrtoul, skip_sign]
  by_cases h1 : (skip_sign (str.dropWhile isspace)).takeWhile isdigit = []
  · right
    simp [parse_time, xstrtoul, strtoul, h0, h1]
  by_cases h2 : digits_value ((skip_sign (str.dropWhile isspace)).takeWhile isdigit)
      > L.ULONG_MAX
  · right
    refine ⟨fun h => by omega, ?_, ?_⟩ <;> simp [parse_time, xstrtoul, strtoul, h0, h1, h2]
  have hlen : ((skip_sign (str.dropWhile isspace)).dropWhile isdigit).length
      < str.length := by
    have ha : ((skip_sign (str.dropWhile isspace)).dropWhile isdigit).length
        < (skip_sign (str.dropWhile isspace)).length := by
      have hh := List.takeWhile_append_dropWhile isdigit (skip_sign (str.dropWhile isspace))
      have hl := congrArg List.length hh
      rw [List.length_append] at hl
      have : 0 < ((skip_sign (str.dropWhile isspace)).takeWhile isdigit).length :=
        List.length_pos.mpr h1
      omega
    have hb : (skip_sign (str.dropWhile isspace)).length ≤ (str.dropWhile isspace).length := by
      cases hs : str.dropWhile isspace with
      | nil => simp [skip_sign]
      | cons c t =>
        simp only [skip_sign]
        split_ifs <;> simp
    have hc : (str.dropWhile isspace).length ≤ str.length :=
      (List.dropWhile_sublist isspace).length_le
    omega
  have h6 : ¬ (0 = str.length) := fun h => h0 (List.length_eq_zero.mp h.symm)
  by_cases h3 : (skip_sign (str.dropWhile isspace)).dropWhile isdigit = []
  · have hx : xstrtoul L.ULONG_MAX str 0 = (0, (strtoul L.ULONG_MAX str).1, none) := by
      by_cases h4 : (str.dropWhile isspace).head? = some 45 <;>
        simp [xstrtoul, strtoul, h0, h1, h2, h3, h4, h6]
    by_cases h5 : (strtoul L.ULONG_MAX str).1 ≤ L.INT_MAX
    · left
      refine ⟨h1, h3, by omega, h5, ?_, ?_⟩ <;> simp [parse_time, hx, not_lt.mpr h5]
    · right
      refine ⟨fun h => h5 h.2.2.2, ?_, ?_⟩ <;> simp [parse_time, hx, lt_of_not_le h5]
  · right
    have hx : (xstrtoul L.ULONG_MAX str 0).1 = -1 := by
      by_cases h4 : (str.dropWhile isspace).head? = some 45 <;>
        simp [xstrtoul, strtoul, h0, h1, h2, h3, h4]
    refine ⟨fun h => h3 h.2.1, ?_, ?_⟩ <;> simp [parse_time, hx]

/-- C11 (as amended): `parse_time(str)` returns 0 exactly when `str` is, from
its start to its end, optional white space, an optional `+` or `-`, and a
non-empty run of decimal digits, with the digits' value at most `ULONG_MAX` and
the result at most `INT_MAX`; the output is then the digits' value, or for `-`
its negation modulo `ULONG_MAX + 1`, and lies in `[0, INT_MAX]`.  Every other
call returns -1 and leaves the output unchanged. -/
theorem parse_time_accepts (L : Limits) (str : List Nat) (out : Nat) :
    (∀ x, ((parse_time L str out).1 = 0 ∧ (parse_time L str out).2.1 = x) ↔
      ∃ ws sg ds, str = ws ++ sg ++ ds ∧ (∀ c ∈ ws, isspace c = true) ∧
        (sg = [] ∨ sg = [43] ∨ sg = [45]) ∧ ds ≠ [] ∧ (∀ c ∈ ds, isdigit c = true) ∧
        digits_value ds ≤ L.ULONG_MAX ∧
        x = (if sg = [45] then (L.ULONG_MAX + 1 - digits_value ds) % (L.ULONG_MAX + 1)
             else digits_value ds) ∧
        x ≤ L.INT_MAX) ∧
    ((parse_time L str out).1 ≠ 0 →
      (parse_time L str out).1 = -1 ∧ (parse_time L str out).2.1 = out) := by
  refine ⟨?_, ?_⟩
  · intro x
    constructor
    · rintro ⟨hrc, hx⟩
      rcases parse_time_cases L str out with ⟨h1, h3, h2, h5, _, hv⟩ | ⟨_, hf, _⟩
      · obtain ⟨ws, sg, ds, hstr, hws, hsg, hne, hds, hdeq, hneg⟩ :=
          strtoul_unshape str h1 h3
        have hval := strtoul_value L.ULONG_MAX str h1 h2
        refine ⟨ws, sg, ds, hstr, hws, hsg, hne, hds, by rw [hdeq]; exact h2, ?_, ?_⟩
        · rw [← hx, hv, hval, hdeq]
          by_cases h45 : sg = [45]
          · simp [h45, hneg.mpr h45]
          · have : ¬ (str.dropWhile isspace).head? = some 45 := fun h => h45 (hneg.mp h)
            simp [h45, this]
        · rw [← hx, hv]; exact h5
      · rw [hf] at hrc
        exact absurd hrc (by decide)
    · rintro ⟨ws, sg, ds, hstr, hws, hsg, hne, hds, hu, hx, hs⟩
      obtain ⟨e1, e2, e3, e4, e5⟩ := strtoul_shape ws sg ds hws hsg hne hds
      have g1 : (skip_sign (str.dropWhile isspace)).takeWhile isdigit = ds := by
        rw [hstr, e1, e2, e4]
      have g3 : (skip_sign (str.dropWhile isspace)).dropWhile isdigit = [] := by
        rw [hstr, e1, e2, e5]
      have h1 : (skip_sign (str.dropWhile isspace)).takeWhile isdigit ≠ [] := by
        rw [g1]; exact hne
      have h2 : digits_value ((skip_sign (str.dropWhile isspace)).takeWhile isdigit)
          ≤ L.ULONG_MAX := by rw [g1]; exact hu
      have hval := strtoul_value L.ULONG_MAX str h1 h2
      have hxv : (strtoul L.ULONG_MAX str).1 = x := by
        rw [hval, g1, hx]
        have hh : ((str.dropWhile isspace).head? = some 45) ↔ sg = [45] := by
          rw [hstr, e1]; exact e3
        by_cases h45 : sg = [45]
        · simp [h45, hh.mpr h45]
        · have : ¬ (str.dropWhile isspace).head? = some 45 := fun h => h45 (hh.mp h)
          simp [h45, this]
      rcases parse_time_cases L str out with ⟨_, _, _, _, hrc, hv⟩ | ⟨hnot, _, _⟩
      · exact ⟨hrc, by rw [hv, hxv]⟩
      · exact absurd ⟨h1, g3, h2, by rw [hxv]; exact hs⟩ hnot
  · intro hne
    rcases parse_time_cases L str out with ⟨_, _, _, _, hrc, _⟩ | ⟨_, hf, ho⟩
    · exact absurd hrc hne
    · exact ⟨hf, ho⟩

/-- C11 (counterexample): on a platform with 32-bit `unsigned long` and `int`,
`parse_time("-4294967295")` returns 0 and stores 1, although the string is a
negative number and not a sequence of decimal digits only. -/
theorem parse_time_accepts_negative :
    parse_time L32 [45, 52, 50, 57, 52, 57, 54, 55, 50, 57, 53] 7 = (0, 1, none) ∧
    ¬ (∀ c ∈ [45, 52, 50, 57, 52, 57, 54, 55, 50, 57, 53], isdigit c = true) := by
  decide

end Repose

namespace Repose

/-! ## The dispatcher: numbers and unknown keys -/

theorem map_errx_iff {α β : Type} (f : α → β) (x : Run α) (m : String) :
    x.map f = .errx m ↔ x = .errx m := by
  cases x <;> simp [Run.map]

theorem pkg_set_string_no_errx (entry : Buf) (len : Nat) (d : Option Buf) (m : String) :
    pkg_set_string entry len d ≠ .errx m := by
  unfold pkg_set_string
  cases strndup entry len <;> simp

theorem pkg_append_list_no_errx (entry : Buf) (len : Nat) (l : List Buf) (m : String) :
    pkg_append_list entry len l ≠ .errx m := by
  unfold pkg_append_list
  cases strndup entry len <;> simp

theorem pkg_set_size_no_errx (L : Limits) (entry : Buf) (len d : Nat) (m : String) :
    pkg_set_size L entry len d ≠ .errx m := by
  unfold pkg_set_size
  cases cstr entry <;> simp

theorem pkg_set_time_no_errx (L : Limits) (entry : Buf) (len d : Nat) (m : String) :
    pkg_set_time L entry len d ≠ .errx m := by
  unfold pkg_set_time
  cases cstr entry <;> simp

theorem set_identity_errx (entry : Buf) (len : Nat) (field : Option Buf)
    (msg m : String) (h : set_identity entry len field msg = .errx m) : m = msg := by
  unfold set_identity at h
  cases field with
  | none => exact absurd h (pkg_set_string_no_errx entry len none m)
  | some cur =>
    simp only at h
    cases hs : strneq entry cur len with
    | none => simp [hs] at h
    | some b =>
      cases b
      · simp only [hs, Run.errx.injEq] at h
        exact h.symm
      · simp [hs] at h

/-- The numeric and timestamp keys never end the process: whatever the value,
`package_set` with `PKG_CSIZE`, `PKG_ISIZE` or `PKG_BUILDDATE` raises no fatal
error. -/
theorem numeric_keys_never_fatal (L : Limits) (p : pkg) (entry : Buf) (len : Nat)
    (m : String) :
    package_set L p .PKG_CSIZE entry len ≠ .errx m ∧
    package_set L p .PKG_ISIZE entry len ≠ .errx m ∧
    package_set L p .PKG_BUILDDATE entry len ≠ .errx m := by
  refine ⟨?_, ?_, ?_⟩ <;>
    simp [package_set, map_errx_iff, pkg_set_size_no_errx, pkg_set_time_no_errx]

/-- C12: with the value "abc", which is no decimal number, `package_set` with
`PKG_CSIZE`, `PKG_ISIZE` and `PKG_BUILDDATE` returns and leaves the record as it
was, although `parse_size` and `parse_time` answer -1 for it: the return code is
dropped and no fatal error is raised. -/
theorem package_set_ignores_malformed_number :
    package_set L32 { size := 7, isize := 8, builddate := 9 } .PKG_CSIZE
        (bytes [97, 98, 99, 0]) 3
      = .ok { size := 7, isize := 8, builddate := 9 } ∧
    package_set L32 { size := 7, isize := 8, builddate := 9 } .PKG_ISIZE
        (bytes [97, 98, 99, 0]) 3
      = .ok { size := 7, isize := 8, builddate := 9 } ∧
    package_set L32 { size := 7, isize := 8, builddate := 9 } .PKG_BUILDDATE
        (bytes [97, 98, 99, 0]) 3
      = .ok { size := 7, isize := 8, builddate := 9 } ∧
    (parse_size L32 [97, 98, 99] 7).1 = -1 ∧
    (parse_time L32 [97, 98, 99] 9).1 = -1 := by
  decide

/-- C13: `package_set` ends with the fatal "parse failure" exactly when the key is
none of the keys it has a case for; for such a key it does so for every record,
entry and length, before any read or store. -/
theorem package_set_parse_failure_iff (L : Limits) (p : pkg) (k : pkg_entry)
    (entry : Buf) (len : Nat) :
    (package_set L p k entry len = .errx "parse failure" ↔ ∃ c, k = .PKG_OTHER c) ∧
    (∀ c (q : pkg) (e : Buf) (n : Nat),
      package_set L q (.PKG_OTHER c) e n = .errx "parse failure") := by
  refine ⟨?_, fun c q e n => rfl⟩
  cases k
  case PKG_OTHER c => simp [package_set]
  case PKG_PKGNAME =>
    simp only [package_set, map_errx_iff, reduceCtorEq, exists_false, iff_false]
    intro h
    exact absurd (set_identity_errx _ _ _ _ _ h) (by decide)
  case PKG_VERSION =>
    simp only [package_set, map_errx_iff, reduceCtorEq, exists_false, iff_false]
    intro h
    exact absurd (set_identity_errx _ _ _ _ _ h) (by decide)
  all_goals
    simp [package_set, map_errx_iff, pkg_set_string_no_errx, pkg_append_list_no_errx,
      pkg_set_size_no_errx, pkg_set_time_no_errx]

end Repose

namespace Repose

/-! ## The manifest reader -/

theorem load_package_loop_found (L : Limits) (p : pkg) (rest : List archive_entry) :
    load_package_loop L p rest true = .ok (p, true) := by
  cases rest <;> simp [load_package_loop]

theorem load_package_loop_none (L : Limits) (p : pkg) (entries : List archive_entry)
    (h : ∀ e ∈ entries, is_pkginfo e = false) :
    load_package_loop L p entries false = .ok (p, false) := by
  induction entries with
  | nil => simp [load_package_loop]
  | cons e rest ih =>
    have he : is_pkginfo e = false := h e (by simp)
    simp only [load_package_loop, he, Bool.false_eq_true, if_false]
    exact ih (fun x hx => h x (by simp [hx]))

theorem load_package_loop_first (L : Limits) (p : pkg) (pre : List archive_entry)
    (e : archive_entry) (post : List archive_entry)
    (hpre : ∀ x ∈ pre, is_pkginfo x = false) (he : is_pkginfo e = true) :
    load_package_loop L p (pre ++ e :: post) false
      = (read_pkginfo L p e.lines).map (fun q => (q, true)) := by
  induction pre with
  | nil =>
    simp only [List.nil_append, load_package_loop, he, Bool.false_eq_true, if_false,
      if_true]
    cases read_pkginfo L p e.lines <;>
      simp [Run.bind, Run.map, load_package_loop_found]
  | cons x rest ih =>
    have hx : is_pkginfo x = false := hpre x (by simp)
    simp only [List.cons_append, load_package_loop, hx, Bool.false_eq_true, if_false]
    exact ih (fun y hy => hpre y (by simp [hy]))

theorem first_pkginfo (entries : List archive_entry)
    (h : ∃ e ∈ entries, is_pkginfo e = true) :
    ∃ pre e post, entries = pre ++ e :: post ∧ (∀ x ∈ pre, is_pkginfo x = false) ∧
      is_pkginfo e = true := by
  induction entries with
  | nil => simp at h
  | cons x rest ih =>
    by_cases hx : is_pkginfo x = true
    · exact ⟨[], x, rest, rfl, by simp, hx⟩
    · have hx2 : is_pkginfo x = false := by simpa using hx
      obtain ⟨e, he, hp⟩ := h
      rcases List.mem_cons.mp he with h1 | h1
      · rw [h1] at hp; exact absurd hp hx
      · obtain ⟨pre, e2, post, h2, h3, h4⟩ := ih ⟨e, h1, hp⟩
        refine ⟨x :: pre, e2, post, by simp [h2], ?_, h4⟩
        intro y hy
        rcases List.mem_cons.mp hy with h5 | h5
        · rw [h5]; exact hx2
        · exact h3 y h5

theorem load_package_absent (E : Collab) (p : pkg) (f : File) (st : Stat)
    (entries : List archive_entry) (hst : f.st = some st)
    (ha : f.archive = some entries) (h : ∀ e ∈ entries, is_pkginfo e = false) :
    load_package E p f = .ok (-1, p) := by
  simp [load_package, hst, ha, load_package_loop_none E.L p entries h, Run.map]

theorem load_package_present (E : Collab) (p : pkg) (f : File) (st : Stat)
    (pre : List archive_entry) (e : archive_entry) (post : List archive_entry)
    (hst : f.st = some st) (ha : f.archive = some (pre ++ e :: post))
    (hpre : ∀ x ∈ pre, is_pkginfo x = false) (he : is_pkginfo e = true) :
    load_package E p f
      = (read_pkginfo E.L p e.lines).map (fun q =>
          ((0 : Int), { q with size := st.st_size, mtime := st.st_mtime,
                               name_hash := E.hash_sdbm q.name })) := by
  simp only [load_package, hst, ha, load_package_loop_first E.L p pre e post hpre he]
  cases read_pkginfo E.L p e.lines <;> simp [Run.map]

/-- C19: for a file whose `fstat` succeeds and whose archive opens with the given
headers: when no header is a regular file named `.PKGINFO`, `load_package`
returns -1 and leaves the record alone; when there is one, the manifest is read
from the first such entry and from no other (the headers before and after it do
not matter), and `load_package` returns 0 with the size and mtime of the file
stamped in once that read returns; so a returned code is 0 exactly when such an
entry exists. -/
theorem load_package_reads_first_manifest (E : Collab) (p : pkg) (f : File) (st : Stat)
    (entries : List archive_entry) (hst : f.st = some st)
    (ha : f.archive = some entries) :
    ((∀ e ∈ entries, is_pkginfo e = false) → load_package E p f = .ok (-1, p)) ∧
    (∀ pre e post, entries = pre ++ e :: post → (∀ x ∈ pre, is_pkginfo x = false) →
      is_pkginfo e = true →
      load_package E p f
        = (read_pkginfo E.L p e.lines).map (fun q =>
            ((0 : Int), { q with size := st.st_size, mtime := st.st_mtime,
                                 name_hash := E.hash_sdbm q.name }))) ∧
    (∀ rc q, load_package E p f = .ok (rc, q) →
      (rc = 0 ↔ ∃ e ∈ entries, S_ISREG e.mode = true ∧ e.pathname = PKGINFO) ∧
      (rc = 0 ∨ rc = -1)) := by
  refine ⟨load_package_absent E p f st entries hst ha, ?_, ?_⟩
  · intro pre e post hsplit hpre he
    exact load_package_present E p f st pre e post hst (by rw [ha, hsplit]) hpre he
  · intro rc q hr
    have hiff : ∀ e : archive_entry,
        (S_ISREG e.mode = true ∧ e.pathname = PKGINFO) ↔ is_pkginfo e = true := by
      intro e; simp [is_pkginfo]
    by_cases hex : ∃ e ∈ entries, is_pkginfo e = true
    · obtain ⟨pre, e, post, hsplit, hpre, he⟩ := first_pkginfo entries hex
      rw [load_package_present E p f st pre e post hst (by rw [ha, hsplit]) hpre he] at hr
      cases hrd : read_pkginfo E.L p e.lines with
      | ok q2 =>
        simp only [hrd, Run.map, Run.ok.injEq, Prod.mk.injEq] at hr
        refine ⟨⟨fun _ => ?_, fun _ => hr.1.symm⟩, Or.inl hr.1.symm⟩
        obtain ⟨x, hx, hp⟩ := hex
        exact ⟨x, hx, (hiff x).mpr hp⟩
      | errx m => simp [hrd, Run.map] at hr
      | fault => simp [hrd, Run.map] at hr
    · have hno : ∀ e ∈ entries, is_pkginfo e = false := by
        intro e he
        by_contra hc
        exact hex ⟨e, he, by simpa using hc⟩
      rw [load_package_absent E p f st entries hst ha hno] at hr
      simp only [Run.ok.injEq, Prod.mk.injEq] at hr
      refine ⟨⟨fun h0 => ?_, fun hx => ?_⟩, Or.inr hr.1.symm⟩
      · rw [← hr.1] at h0; exact absurd h0 (by decide)
      · obtain ⟨x, hx1, hx2⟩ := hx
        exact absurd ⟨x, hx1, (hiff x).mp hx2⟩ hex

theorem load_package_reads_first_manifest_witness :
    load_package E0 { filename := some (bytes [97, 0]) } file_a
      = (read_pkginfo E0.L { filename := some (bytes [97, 0]) }
          [(.PKG_PKGNAME, bytes [97, 0], 1), (.PKG_VERSION, bytes [49, 0], 1)]).map
          (fun q => ((0 : Int), { q with size := 100, mtime := 10,
                                         name_hash := E0.hash_sdbm q.name })) :=
  (load_package_reads_first_manifest E0 { filename := some (bytes [97, 0]) } file_a
    { st_size := 100, st_mtime := 10 }
    [{ pathname := [97], mode := 33188, lines := [] },
     { pathname := PKGINFO, mode := 33188,
       lines := [(.PKG_PKGNAME, bytes [97, 0], 1), (.PKG_VERSION, bytes [49, 0], 1)] }]
    rfl rfl).2.1
    [{ pathname := [97], mode := 33188, lines := [] }]
    { pathname := PKGINFO, mode := 33188,
      lines := [(.PKG_PKGNAME, bytes [97, 0], 1), (.PKG_VERSION, bytes [49, 0], 1)] }
    [] rfl (by decide) (by decide)

end Repose

namespace Repose

/-! ## The signature sidecar -/

theorem load_package_signature_unopened (E : Collab) (p : pkg) (dir : Dir)
    (fname : List Nat) (e : Errno) (hf : strval p.filename = some fname)
    (ho : dir.openat (fname ++ SIG) = .error e) :
    load_package_signature E p dir = .ok (-1, p, some e) := by
  simp [load_package_signature, hf, ho]

theorem load_package_signature_opened (E : Collab) (p : pkg) (dir : Dir)
    (fname : List Nat) (f : File) (hf : strval p.filename = some fname)
    (ho : dir.openat (fname ++ SIG) = .ok f) :
    load_package_signature E p dir
      = match f.st with
        | none => .errx "failed to stat signature"
        | some st =>
          match f.content with
          | none => .errx "failed to read signature"
          | some data =>
            match E.base64_encode data with
            | none => .errx "failed to find base64 signature"
            | some sig =>
              .ok (0, { p with base64sig := some sig,
                               mtime := if st.st_mtime > p.mtime then st.st_mtime
                                        else p.mtime }, none) := by
  simp [load_package_signature, hf, ho]

theorem load_package_mtime (E : Collab) (p : pkg) (f : File) (st : Stat) (rc : Int)
    (q : pkg) (hst : f.st = some st) (h : load_package E p f = .ok (rc, q))
    (hrc : ¬ rc < 0) : q.mtime = st.st_mtime := by
  simp only [load_package, hst] at h
  cases ha : f.archive with
  | none =>
    simp only [ha, Run.ok.injEq, Prod.mk.injEq] at h
    omega
  | some entries =>
    simp only [ha] at h
    cases hl : load_package_loop E.L p entries false with
    | ok r =>
      simp only [hl, Run.map, Run.ok.injEq] at h
      by_cases hfound : r.2 = true
      · simp only [hfound, if_true, Prod.mk.injEq] at h
        rw [← h.2]
      · simp only [hfound, Bool.false_eq_true, if_false, Prod.mk.injEq] at h
        omega
    | errx m => simp [hl, Run.map] at h
    | fault => simp [hl, Run.map] at h

theorem load_from_file_eq (E : Collab) (dir : Dir) (filename : List Nat) (f : File)
    (rc : Int) (q : pkg) (ho : dir.openat filename = .ok f)
    (hl : load_package E { filename := some (bytes filename ++ [some 0]) } f
      = .ok (rc, q)) :
    load_from_file E dir filename
      = if rc < 0 then .ok none
        else (load_package_signature E q dir).bind (fun s =>
          if s.1 < 0 ∧ s.2.2 ≠ some .ENOENT then .ok none else .ok (some s.2.1)) := by
  simp [load_from_file, ho, hl, Run.bind]

/-- C14: when `load_from_file` returns a record for an archive file whose `fstat`
gives the modification time `m_pkg`, and the sidecar named after the record opens
and its `fstat` gives `m_sig`, the mtime of the record is the later of the two:
`m_sig` when it is strictly later than `m_pkg`, and `m_pkg` otherwise, whatever
the manifest dispatched. -/
theorem load_from_file_mtime (E : Collab) (dir : Dir) (filename : List Nat) (f : File)
    (st : Stat) (q : pkg) (fname : List Nat) (sigf : File) (sst : Stat)
    (ho : dir.openat filename = .ok f) (hst : f.st = some st)
    (hret : load_from_file E dir filename = .ok (some q))
    (hname : strval q.filename = some fname)
    (hsig : dir.openat (fname ++ SIG) = .ok sigf) (hsst : sigf.st = some sst) :
    q.mtime = max st.st_mtime sst.st_mtime ∧
    (st.st_mtime < sst.st_mtime → q.mtime = sst.st_mtime) ∧
    (¬ st.st_mtime < sst.st_mtime → q.mtime = st.st_mtime) := by
  have hm : q.mtime = if sst.st_mtime > st.st_mtime then sst.st_mtime else st.st_mtime := by
    cases hl : load_package E { filename := some (bytes filename ++ [some 0]) } f with
    | errx m => simp [load_from_file, ho, hl, Run.bind] at hret
    | fault => simp [load_from_file, ho, hl, Run.bind] at hret
    | ok r =>
      obtain ⟨rc, q1⟩ := r
      rw [load_from_file_eq E dir filename f rc q1 ho hl] at hret
      by_cases hrc : rc < 0
      · simp [hrc] at hret
      · simp only [hrc, if_false] at hret
        have hq1 := load_package_mtime E _ f st rc q1 hst hl hrc
        cases hn1 : strval q1.filename with
        | none => simp [load_package_signature, hn1, Run.bind] at hret
        | some fname1 =>
          cases ho1 : dir.openat (fname1 ++ SIG) with
          | error e =>
            rw [load_package_signature_unopened E q1 dir fname1 e hn1 ho1] at hret
            by_cases he : e = .ENOENT
            · simp only [Run.bind, he] at hret
              simp only [ne_eq, not_true_eq_false, and_false, if_false, Run.ok.injEq,
                Option.some.injEq] at hret
              rw [← hret, hn1] at hname
              simp only [Option.some.injEq] at hname
              rw [hname, hsig] at ho1
              simp at ho1
            · simp [Run.bind, he] at hret
          | ok f2 =>
            rw [load_package_signature_opened E q1 dir fname1 f2 hn1 ho1] at hret
            cases hs2 : f2.st with
            | none => simp [hs2, Run.bind] at hret
            | some st2 =>
              cases hc2 : f2.content with
              | none => simp [hs2, hc2, Run.bind] at hret
              | some data =>
                cases hb : E.base64_encode data with
                | none => simp [hs2, hc2, hb, Run.bind] at hret
                | some sig =>
                  simp only [hs2, hc2, hb, Run.bind] at hret
                  simp only [Int.lt_irrefl, false_and, if_false, Run.ok.injEq,
                    Option.some.injEq] at hret
                  have hfn : q.filename = q1.filename := by rw [← hret]
                  rw [hfn, hn1] at hname
                  simp only [Option.some.injEq] at hname
                  rw [hname, hsig] at ho1
                  simp only [Except.ok.injEq] at ho1
                  rw [← ho1, hsst] at hs2
                  simp only [Option.some.injEq] at hs2
                  rw [← hret, hs2]
                  simp only [hq1]
  refine ⟨?_, ?_, ?_⟩
  · rw [hm]
    by_cases h : sst.st_mtime > st.st_mtime
    · simp [h]; omega
    · simp [h]; omega
  · intro h
    rw [hm]; simp [h]
  · intro h
    rw [hm]; simp [h]

theorem load_from_file_mtime_witness :
    ({ pkg_a with base64sig := some (bytes [1, 2, 3, 4] ++ [some 0]), mtime := 20 } : pkg).mtime
      = max (10 : Nat) 20 :=
  (load_from_file_mtime E0 (dir_of [dp_a] (.ok file_sig)) [97] file_a
    { st_size := 100, st_mtime := 10 }
    { pkg_a with base64sig := some (bytes [1, 2, 3, 4] ++ [some 0]), mtime := 20 }
    [97] file_sig { st_size := 4, st_mtime := 20 }
    rfl rfl (by decide) (by decide) rfl rfl).1

end Repose

namespace Repose

/-! ## The scan -/

theorem scan_loop_skip_cons (E : Collab) (dir : Dir) (targets : List Buf)
    (arch : Option Buf) (cache : alpm_pkghash_t) (dp : dirent) (rest : List dirent)
    (h : load_from_file E dir dp.d_name = .ok none) :
    scan_loop E dir targets arch cache (dp :: rest)
      = scan_loop E dir targets arch cache rest := by
  by_cases hf : is_file dp = true <;> simp [scan_loop, hf, h]

theorem scan_loop_skip (E : Collab) (dir : Dir) (targets : List Buf)
    (arch : Option Buf) (cache : alpm_pkghash_t) (pre : List dirent) (dp : dirent)
    (post : List dirent) (h : load_from_file E dir dp.d_name = .ok none) :
    scan_loop E dir targets arch cache (pre ++ dp :: post)
      = scan_loop E dir targets arch cache (pre ++ post) := by
  induction pre generalizing cache with
  | nil => exact scan_loop_skip_cons E dir targets arch cache dp post h
  | cons x rest ih =>
    simp only [List.cons_append, scan_loop]
    split
    · exact ih cache
    · split
      · rfl
      · rfl
      · exact ih cache
      · split
        · exact ih cache
        · split
          · exact ih cache
          · exact ih _

theorem replace_mem (c : alpm_pkghash_t) (new old e : pkg)
    (h : e ∈ _alpm_pkghash_replace c new old) : e = new ∨ e ∈ c := by
  induction c with
  | nil => simp [_alpm_pkghash_replace] at h
  | cons x rest ih =>
    by_cases hx : strval x.name = strval old.name
    · simp only [_alpm_pkghash_replace, hx, if_true, List.mem_cons] at h
      rcases h with h | h
      · exact Or.inl h
      · exact Or.inr (List.mem_cons_of_mem _ h)
    · simp only [_alpm_pkghash_replace, hx, if_false, List.mem_cons] at h
      rcases h with h | h
      · exact Or.inr (by rw [h]; simp)
      · rcases ih h with h2 | h2
        · exact Or.inl h2
        · exact Or.inr (List.mem_cons_of_mem _ h2)

theorem pkgcache_add_mem (vercmp : Option Buf → Option Buf → Int) (c : alpm_pkghash_t)
    (p e : pkg) (h : e ∈ pkgcache_add vercmp c p) : e = p ∨ e ∈ c := by
  unfold pkgcache_add at h
  cases hf : _alpm_pkghash_find c p.name with
  | none =>
    simp only [hf, _alpm_pkghash_add, List.mem_append, List.mem_singleton] at h
    tauto
  | some old =>
    simp only [hf] at h
    split_ifs at h
    · exact replace_mem c p old e h
    · exact Or.inr h

theorem pkgcache_add_length_le (vercmp : Option Buf → Option Buf → Int)
    (c : alpm_pkghash_t) (p : pkg) : (pkgcache_add vercmp c p).length ≤ c.length + 1 := by
  unfold pkgcache_add
  cases hf : _alpm_pkghash_find c p.name with
  | none => simp [_alpm_pkghash_add]
  | some old =>
    simp only
    split_ifs
    · rw [length_replace]; omega
    · omega

theorem fold_add_mem (vercmp : Option Buf → Option Buf → Int) (recs : List pkg)
    (c : alpm_pkghash_t) (e : pkg) (h : e ∈ recs.foldl (pkgcache_add vercmp) c) :
    e ∈ c ∨ e ∈ recs := by
  induction recs generalizing c with
  | nil => exact Or.inl h
  | cons p rest ih =>
    rcases ih (pkgcache_add vercmp c p) h with h1 | h1
    · rcases pkgcache_add_mem vercmp c p e h1 with h2 | h2
      · exact Or.inr (by rw [h2]; simp)
      · exact Or.inl h2
    · exact Or.inr (List.mem_cons_of_mem _ h1)

theorem count_files_eq (ents : List dirent) (n : Nat) :
    count_files ents n = n + (ents.filter is_file).length := by
  induction ents generalizing n with
  | nil => simp [count_files]
  | cons dp rest ih =>
    by_cases hf : is_file dp = true
    · simp [count_files, hf, ih]; omega
    · simp [count_files, hf, ih]

theorem scan_loop_length (E : Collab) (dir : Dir) (targets : List Buf)
    (arch : Option Buf) (cache : alpm_pkghash_t) (ents : List dirent)
    (c : alpm_pkghash_t) (h : scan_loop E dir targets arch cache ents = .ok c) :
    c.length ≤ cache.length + (ents.filter is_file).length := by
  induction ents generalizing cache with
  | nil =>
    simp only [scan_loop, Run.ok.injEq] at h
    simp [h]
  | cons dp rest ih =>
    by_cases hf : is_file dp = true
    · have hstep : ∀ cache2 : alpm_pkghash_t, cache2.length ≤ cache.length + 1 →
          scan_loop E dir targets arch cache2 rest = .ok c →
          c.length ≤ cache.length + ((dp :: rest).filter is_file).length := by
        intro cache2 hl h2
        have := ih cache2 h2
        simp [hf]
        omega
      simp only [scan_loop, hf, Bool.not_true, Bool.false_eq_true, if_false] at h
      split at h
      · simp at h
      · simp at h
      · exact hstep cache (by omega) h
      · split at h
        · exact hstep cache (by omega) h
        · split at h
          · exact hstep cache (by omega) h
          · exact hstep _ (pkgcache_add_length_le _ _ _) h
    · simp only [scan_loop, hf, Bool.not_false, if_true] at h
      have := ih cache h
      simp [hf]
      exact this

theorem passes_eq (E : Collab) (targets : List Buf) (arch : Option Buf) (p : pkg) :
    passes E targets arch p = (!targets_reject E targets p && !arch_rejects E arch p) := by
  cases arch <;> by_cases ht : targets = [] <;>
    cases hm : E.match_targets p targets <;>
    simp [passes, targets_reject, arch_rejects, ht, hm]

theorem scan_loop_eq_loaded (E : Collab) (dir : Dir) (targets : List Buf)
    (arch : Option Buf) (cache : alpm_pkghash_t) (ents : List dirent) :
    scan_loop E dir targets arch cache ents
      = (loaded E dir ents).map (fun recs =>
          (recs.filter (passes E targets arch)).foldl (pkgcache_add E.vercmp) cache) := by
  induction ents generalizing cache with
  | nil => simp [scan_loop, loaded, Run.map]
  | cons dp rest ih =>
    by_cases hf : is_file dp = true
    · simp only [scan_loop, loaded, hf, Bool.not_true, Bool.false_eq_true, if_false]
      cases hl : load_from_file E dir dp.d_name with
      | errx m => simp [Run.bind, Run.map]
      | fault => simp [Run.bind, Run.map]
      | ok r =>
        cases r with
        | none =>
          simp only [Run.bind]
          rw [ih cache]
          cases loaded E dir rest <;> simp [Run.map]
        | some p =>
          simp only [Run.bind]
          have hp := passes_eq E targets arch p
          cases ht : targets_reject E targets p <;> cases ha : arch_rejects E arch p <;>
            simp only [ht, ha, Bool.not_true, Bool.not_false, Bool.and_true, Bool.and_false,
              Bool.false_and, Bool.true_and, Bool.false_eq_true, if_false, if_true] at hp ⊢ <;>
            rw [ih] <;>
            cases loaded E dir rest <;> simp [Run.map, hp]
    · simp only [scan_loop, loaded, hf, Bool.not_false, if_true]
      exact ih cache

end Repose

namespace Repose

/-! ## The loader and the scan: the claims -/

/-- C15: when `load_package` has returned 0 with a record and opening the sidecar
`<filename>.sig` fails with `ENOENT`, `load_package_signature` returns -1 and
leaves the record as it was (its mtime is the mtime of the package file), and
`load_from_file` returns that record. -/
theorem missing_sidecar_keeps_record (E : Collab) (dir : Dir) (filename : List Nat)
    (f : File) (st : Stat) (q : pkg) (fname : List Nat)
    (ho : dir.openat filename = .ok f) (hst : f.st = some st)
    (hl : load_package E { filename := some (bytes filename ++ [some 0]) } f = .ok (0, q))
    (hf : strval q.filename = some fname)
    (hno : dir.openat (fname ++ SIG) = .error .ENOENT) :
    load_package_signature E q dir = .ok (-1, q, some .ENOENT) ∧
    load_from_file E dir filename = .ok (some q) ∧
    q.mtime = st.st_mtime := by
  have hs := load_package_signature_unopened E q dir fname .ENOENT hf hno
  refine ⟨hs, ?_, load_package_mtime E _ f st 0 q hst hl (by decide)⟩
  rw [load_from_file_eq E dir filename f 0 q ho hl, hs]
  simp [Run.bind]

theorem missing_sidecar_keeps_record_witness :
    load_from_file E0 (dir_of [dp_a] (.error .ENOENT)) [97] = .ok (some pkg_a) :=
  (missing_sidecar_keeps_record E0 (dir_of [dp_a] (.error .ENOENT)) [97] file_a
    { st_size := 100, st_mtime := 10 } pkg_a [97] rfl rfl (by decide) (by decide) rfl).2.1

/-- C16 (as amended): after `load_package` has returned 0 with a record, a failure
to open the sidecar with an error other than `ENOENT` makes `load_package_signature`
return -1 and `load_from_file` drop the record and return NULL, and the scan goes
on to the next directory entry; a failure of `fstat` or of `read` on the opened
sidecar, and a NULL result of the base64 encoder, end the process. -/
theorem sidecar_failures (E : Collab) (dir : Dir) (dp : dirent) (f : File) (q : pkg)
    (fname : List Nat) (ho : dir.openat dp.d_name = .ok f)
    (hl : load_package E { filename := some (bytes dp.d_name ++ [some 0]) } f
      = .ok (0, q))
    (hf : strval q.filename = some fname) :
    (∀ e, e ≠ .ENOENT → dir.openat (fname ++ SIG) = .error e →
      load_package_signature E q dir = .ok (-1, q, some e) ∧
      load_from_file E dir dp.d_name = .ok none ∧
      ∀ targets arch cache rest,
        scan_loop E dir targets arch cache (dp :: rest)
          = scan_loop E dir targets arch cache rest) ∧
    (∀ sf, dir.openat (fname ++ SIG) = .ok sf → sf.st = none →
      load_from_file E dir dp.d_name = .errx "failed to stat signature") ∧
    (∀ sf sst, dir.openat (fname ++ SIG) = .ok sf → sf.st = some sst →
      sf.content = none →
      load_from_file E dir dp.d_name = .errx "failed to read signature") ∧
    (∀ sf sst data, dir.openat (fname ++ SIG) = .ok sf → sf.st = some sst →
      sf.content = some data → E.base64_encode data = none →
      load_from_file E dir dp.d_name = .errx "failed to find base64 signature") := by
  have heq := load_from_file_eq E dir dp.d_name f 0 q ho hl
  refine ⟨?_, ?_, ?_, ?_⟩
  · intro e he hopen
    have hs := load_package_signature_unopened E q dir fname e hf hopen
    have hnone : load_from_file E dir dp.d_name = .ok none := by
      rw [heq, hs]
      simp [Run.bind, he]
    exact ⟨hs, hnone, fun targets arch cache rest =>
      scan_loop_skip_cons E dir targets arch cache dp rest hnone⟩
  · intro sf hopen hst
    rw [heq, load_package_signature_opened E q dir fname sf hf hopen]
    simp [hst, Run.bind]
  · intro sf sst hopen hst hc
    rw [heq, load_package_signature_opened E q dir fname sf hf hopen]
    simp [hst, hc, Run.bind]
  · intro sf sst data hopen hst hc hb
    rw [heq, load_package_signature_opened E q dir fname sf hf hopen]
    simp [hst, hc, hb, Run.bind]

theorem sidecar_failures_witness :
    load_from_file E0 (dir_of [dp_a] (.ok { file_sig with content := none })) [97]
      = .errx "failed to read signature" :=
  (sidecar_failures E0 (dir_of [dp_a] (.ok { file_sig with content := none })) dp_a
    file_a pkg_a [97] rfl (by decide) (by decide)).2.2.1
    { file_sig with content := none } { st_size := 4, st_mtime := 20 } rfl rfl rfl

/-- C16 (counterexample): for the archive `a` whose sidecar `a.sig` cannot be
opened for lack of permission (`EACCES`), `load_package_signature` returns -1 and
`load_from_file` returns NULL: loading the file does not end the process, the
record is dropped and the caller is told to skip the file. -/
theorem sidecar_permission_denied_is_skipped :
    load_from_file E0 (dir_of [dp_a] (.error .EACCES)) [97] = .ok none ∧
    load_package_signature E0 pkg_a (dir_of [dp_a] (.error .EACCES))
      = .ok (-1, pkg_a, some .EACCES) ∧
    load_package E0 { filename := some (bytes [97] ++ [some 0]) } file_a
      = .ok (0, pkg_a) := by
  decide

theorem present_add (vercmp : Option Buf → Option Buf → Int) (c : alpm_pkghash_t)
    (p : pkg) (n : Option Buf) (h : ∃ e, _alpm_pkghash_find c n = some e) :
    ∃ e, _alpm_pkghash_find (pkgcache_add vercmp c p) n = some e := by
  obtain ⟨e, he⟩ := h
  cases hf : _alpm_pkghash_find c p.name with
  | none =>
    rw [pkgcache_add_absent vercmp c p hf]
    have := find_add c p n
    simp only [_alpm_pkghash_add] at this
    rw [this, he]
    exact ⟨e, rfl⟩
  | some old =>
    by_cases hv : vercmp p.version old.version = 0 ∨ vercmp p.version old.version = 1
    · rw [pkgcache_add_newer vercmp c p old hf hv,
        find_replace c p old (find_name hf).symm n, he]
      by_cases hn : strval n = strval old.name
      · exact ⟨p, by simp [hn]⟩
      · exact ⟨e, by simp [hn]⟩
    · rw [pkgcache_add_older vercmp c p old hf hv]
      exact ⟨e, he⟩

theorem present_self (vercmp : Option Buf → Option Buf → Int) (c : alpm_pkghash_t)
    (p : pkg) : ∃ e, _alpm_pkghash_find (pkgcache_add vercmp c p) p.name = some e := by
  cases hf : _alpm_pkghash_find c p.name with
  | none =>
    rw [pkgcache_add_absent vercmp c p hf]
    have := find_add c p p.name
    simp only [_alpm_pkghash_add] at this
    rw [this, hf]
    exact ⟨p, by simp⟩
  | some old => exact present_add vercmp c p p.name ⟨old, hf⟩

theorem fold_present_keep (vercmp : Option Buf → Option Buf → Int) (recs : List pkg)
    (c : alpm_pkghash_t) (n : Option Buf) (h : ∃ e, _alpm_pkghash_find c n = some e) :
    ∃ e, _alpm_pkghash_find (recs.foldl (pkgcache_add vercmp) c) n = some e := by
  induction recs generalizing c with
  | nil => exact h
  | cons x rest ih => exact ih (pkgcache_add vercmp c x) (present_add vercmp c x n h)

theorem fold_present (vercmp : Option Buf → Option Buf → Int) (recs : List pkg)
    (c : alpm_pkghash_t) (p : pkg) (hp : p ∈ recs) :
    ∃ e, _alpm_pkghash_find (recs.foldl (pkgcache_add vercmp) c) p.name = some e := by
  induction recs generalizing c with
  | nil => simp at hp
  | cons x rest ih =>
    rcases List.mem_cons.mp hp with h | h
    · rw [h]
      exact fold_present_keep vercmp rest _ x.name (present_self vercmp c x)
    · exact ih (pkgcache_add vercmp c x) h

theorem loaded_mem (E : Collab) (dir : Dir) (ents : List dirent) (recs : List pkg)
    (hl : loaded E dir ents = .ok recs) (dv : dirent) (hdv : dv ∈ ents) (p : pkg)
    (hf : is_file dv = true) (hp : load_from_file E dir dv.d_name = .ok (some p)) :
    p ∈ recs := by
  induction ents generalizing recs with
  | nil => simp at hdv
  | cons x rest ih =>
    by_cases hx : is_file x = true
    · simp only [loaded, hx, Bool.not_true, Bool.false_eq_true, if_false] at hl
      cases hlx : load_from_file E dir x.d_name with
      | errx m => simp [hlx, Run.bind] at hl
      | fault => simp [hlx, Run.bind] at hl
      | ok r =>
        simp only [hlx, Run.bind] at hl
        cases hlr : loaded E dir rest with
        | errx m => simp [hlr, Run.map] at hl
        | fault => simp [hlr, Run.map] at hl
        | ok l =>
          simp only [hlr, Run.map, Run.ok.injEq] at hl
          rcases List.mem_cons.mp hdv with h | h
          · rw [h, hlx] at hp
            simp only [Run.ok.injEq] at hp
            rw [hp] at hl
            rw [← hl]
            simp
          · have hin := ih l hlr h
            rw [← hl]
            cases r with
            | none => exact hin
            | some p2 => exact List.mem_cons_of_mem _ hin
    · simp only [loaded, hx, Bool.not_false, if_true] at hl
      rcases List.mem_cons.mp hdv with h | h
      · rw [h] at hf; exact absurd hf hx
      · exact ih recs hl h

/-- C17: a directory entry whose file opens and answers `fstat` but whose archive
does not open, or holds no regular file named `.PKGINFO`, gives no record, and
the scan goes on as if the entry were not listed: `scan_for_targets` returns the
same cache for the listing with and without it, whatever is listed before or
after.  When the loads of the other plain files return, the scan returns the
cache built from their records that pass the filters, offered in order, and
every valid archive listed before or after the entry whose record passes the
filters is found in that cache under its name. -/
theorem corrupt_archive_is_skipped (E : Collab) (dir : Dir) (dp : dirent) (f : File)
    (st : Stat) (ho : dir.openat dp.d_name = .ok f) (hst : f.st = some st)
    (hbad : f.archive = none ∨
      ∃ entries, f.archive = some entries ∧ ∀ e ∈ entries, is_pkginfo e = false) :
    load_from_file E dir dp.d_name = .ok none ∧
    (∀ cache pre post targets arch,
      scan_for_targets E cache dir ⟨pre ++ dp :: post, 0⟩ targets arch
        = scan_for_targets E cache dir ⟨pre ++ post, 0⟩ targets arch) ∧
    (∀ cache pre post targets arch recs, loaded E dir (pre ++ post) = .ok recs →
      scan_for_targets E cache dir ⟨pre ++ dp :: post, 0⟩ targets arch
        = .ok ((recs.filter (passes E targets arch)).foldl (pkgcache_add E.vercmp) cache) ∧
      ∀ dv ∈ pre ++ post, ∀ p, is_file dv = true →
        load_from_file E dir dv.d_name = .ok (some p) → passes E targets arch p = true →
        ∃ e, _alpm_pkghash_find
          ((recs.filter (passes E targets arch)).foldl (pkgcache_add E.vercmp) cache)
          p.name = some e) := by
  have hl : load_package E { filename := some (bytes dp.d_name ++ [some 0]) } f
      = .ok (-1, { filename := some (bytes dp.d_name ++ [some 0]) }) := by
    rcases hbad with h | ⟨entries, h, hno⟩
    · simp [load_package, hst, h]
    · exact load_package_absent E _ f st entries hst h hno
  have hnone : load_from_file E dir dp.d_name = .ok none := by
    rw [load_from_file_eq E dir dp.d_name f (-1) _ ho hl]
    simp
  have hskip : ∀ cache pre post targets arch,
      scan_for_targets E cache dir ⟨pre ++ dp :: post, 0⟩ targets arch
        = scan_for_targets E cache dir ⟨pre ++ post, 0⟩ targets arch := by
    intro cache pre post targets arch
    simp only [scan_for_targets, pending, List.drop_zero]
    exact scan_loop_skip E dir targets arch cache pre dp post hnone
  refine ⟨hnone, hskip, ?_⟩
  intro cache pre post targets arch recs hrecs
  refine ⟨?_, ?_⟩
  · rw [hskip]
    simp only [scan_for_targets, pending, List.drop_zero]
    rw [scan_loop_eq_loaded, hrecs]
    rfl
  · intro dv hdv p hf hp hpass
    have hmem := loaded_mem E dir (pre ++ post) recs hrecs dv hdv p hf hp
    exact fold_present E.vercmp _ cache p (List.mem_filter.mpr ⟨hmem, hpass⟩)

theorem corrupt_archive_is_skipped_witness :
    scan_for_targets E0 [] (dir_of [dp_b, dp_a] (.error .ENOENT))
        ⟨[] ++ dp_b :: [dp_a], 0⟩ [] none = .ok [pkg_a] ∧
    ∃ e, _alpm_pkghash_find [pkg_a] pkg_a.name = some e :=
  ⟨((corrupt_archive_is_skipped E0 (dir_of [dp_b, dp_a] (.error .ENOENT)) dp_b file_b
      { st_size := 3, st_mtime := 5 } rfl rfl (Or.inl rfl)).2.2 [] [] [dp_a] [] none
      [pkg_a] (by decide)).1,
   ((corrupt_archive_is_skipped E0 (dir_of [dp_b, dp_a] (.error .ENOENT)) dp_b file_b
      { st_size := 3, st_mtime := 5 } rfl rfl (Or.inl rfl)).2.2 [] [] [dp_a] [] none
      [pkg_a] (by decide)).2 dp_a (by simp) pkg_a (by decide) (by decide) (by decide)⟩

/-- C18: `scan_for_targets` gives the cache obtained by offering to `pkgcache_add`,
in order, the loaded records that pass the filters (`match_targets` when targets
are given, `match_arch` when an architecture is given) and no other; from an
empty cache every record of the result passes the filters. -/
theorem scan_filters_before_insertion (E : Collab) (dir : Dir) (dirp : DIR)
    (targets : List Buf) (arch : Option Buf) (cache : alpm_pkghash_t) :
    scan_for_targets E cache dir dirp targets arch
      = (loaded E dir (pending dirp)).map (fun recs =>
          (recs.filter (passes E targets arch)).foldl (pkgcache_add E.vercmp) cache) ∧
    ∀ c, scan_for_targets E [] dir dirp targets arch = .ok c →
      ∀ e ∈ c, passes E targets arch e = true := by
  have h := scan_loop_eq_loaded E dir targets arch
  refine ⟨h cache (pending dirp), ?_⟩
  intro c hc e he
  simp only [scan_for_targets] at hc
  rw [h [] (pending dirp)] at hc
  cases hl : loaded E dir (pending dirp) with
  | errx m => simp [hl, Run.map] at hc
  | fault => simp [hl, Run.map] at hc
  | ok recs =>
    simp only [hl, Run.map, Run.ok.injEq] at hc
    rw [← hc] at he
    rcases fold_add_mem E.vercmp _ [] e he with h1 | h1
    · simp at h1
    · exact (List.mem_filter.mp h1).2

/-- C20: `get_filecache_size` returns the number of plain files among the entries
to come and rewinds the stream, so the scan visits the same entries as the count;
a cache returned by `get_filecache` holds at most that many records; and for an
empty directory whose handle duplicates, seeks and opens, `get_filecache` returns
the empty cache. -/
theorem filecache_size_bounds_cache (E : Collab) (dir : Dir) (targets : List Buf)
    (arch : Option Buf) :
    (get_filecache_size ⟨dir.entries, 0⟩).1 = (dir.entries.filter is_file).length ∧
    pending (get_filecache_size ⟨dir.entries, 0⟩).2 = pending ⟨dir.entries, 0⟩ ∧
    (∀ c, get_filecache E dir targets arch = .ok c →
      c.length ≤ (get_filecache_size ⟨dir.entries, 0⟩).1) ∧
    (dir.entries = [] → dir.dup_ok = true → dir.lseek_ok = true →
      dir.fdopendir_ok = true → get_filecache E dir targets arch = .ok []) := by
  have h1 : (get_filecache_size ⟨dir.entries, 0⟩).1 = (dir.entries.filter is_file).length := by
    simp [get_filecache_size, pending, count_files_eq]
  have h2 : pending (get_filecache_size ⟨dir.entries, 0⟩).2 = dir.entries := by
    simp [get_filecache_size, pending, rewinddir]
  refine ⟨h1, by rw [h2]; simp [pending], ?_, ?_⟩
  · intro c hc
    unfold get_filecache at hc
    split_ifs at hc
    simp only [scan_for_targets, h2, _alpm_pkghash_create] at hc
    have := scan_loop_length E dir targets arch [] dir.entries c hc
    rw [h1]
    simpa using this
  · intro he hd hs hf
    simp [get_filecache, hd, hs, hf, scan_for_targets, h2, he, scan_loop,
      _alpm_pkghash_create]

theorem filecache_size_bounds_cache_witness :
    get_filecache E0 (dir_of [] (.error .ENOENT)) [] none = .ok [] :=
  (filecache_size_bounds_cache E0 (dir_of [] (.error .ENOENT)) [] none).2.2.2
    rfl rfl rfl rfl

end Repose

namespace Repose

/-! ## The strndup shim -/

theorem cstr_unterminated (w : List Nat) (hw : ∀ c ∈ w, c ≠ 0) : cstr (bytes w) = none := by
  induction w with
  | nil => simp [bytes, cstr]
  | cons c t ih =>
    have hc : c ≠ 0 := hw c (by simp)
    have h := ih (fun x hx => hw x (by simp [hx]))
    simp only [bytes] at h
    simp [bytes, cstr, hc, h]

theorem strndup_loop_overlong (v : List Nat) (hv : ∀ c ∈ v, c ≠ 0) (rest r : Buf)
    (p n : Nat) (hn : n < v.length) (hp : p + n < r.length) :
    strndup_loop (bytes v ++ rest) r p n
      = some (r.take p ++ bytes (v.take (n + 1)) ++ r.drop (p + n + 1)) := by
  induction v generalizing r p n with
  | nil => simp at hn
  | cons c t ih =>
    have hc : c ≠ 0 := hv c (by simp)
    have ht : ∀ x ∈ t, x ≠ 0 := fun x hx => hv x (by simp [hx])
    have hp2 : p < r.length := by omega
    cases n with
    | zero =>
      simp [bytes, strndup_loop, poke_some r p c hp2]
    | succ m =>
      simp only [List.length_cons] at hn
      have hstep : strndup_loop (bytes (c :: t) ++ rest) r p (m + 1)
          = strndup_loop (bytes t ++ rest)
              (r.take p ++ some c :: r.drop (p + 1)) (p + 1) m := by
        simp [bytes, strndup_loop, hc, poke_some r p c hp2]
      rw [hstep, ih ht (r.take p ++ some c :: r.drop (p + 1)) (p + 1) m (by omega)
        (by simp; omega)]
      have hlen : (List.take p r).length = p := by simp; omega
      have h1 : List.take (p + 1) (List.take p r ++ some c :: List.drop (p + 1) r)
          = List.take p r ++ [some c] := by
        rw [List.take_append_eq_append_take]
        simp [hlen]
      have h2 : List.drop (p + 1 + m + 1)
          (List.take p r ++ some c :: List.drop (p + 1) r)
          = List.drop (p + (m + 1) + 1) r := by
        rw [List.drop_append_eq_append_drop]
        have h3 : List.drop (p + 1 + m + 1) (List.take p r) = [] := by
          apply List.drop_eq_nil_of_le; rw [hlen]; omega
        rw [h3, hlen]
        have h4 : p + 1 + m + 1 - p = (m + 1) + 1 := by omega
        rw [h4]
        simp only [List.nil_append, List.drop_succ_cons, List.drop_drop]
        congr 1
        omega
      rw [h1, h2]
      simp [bytes]

/-- The shim on a string longer than `n`: the buffer of `n + 1` bytes holds the
first `n + 1` characters of the string and no terminator. -/
theorem strndup_overlong (s : Buf) (n : Nat) (v : List Nat) (h : cstr s = some v)
    (hn : n < v.length) :
    strndup s n = some (bytes (v.take (n + 1))) ∧ cstr (bytes (v.take (n + 1))) = none := by
  obtain ⟨⟨rest, hr⟩, hz⟩ := cstr_split s v h
  have hm : (malloc (n + 1)).length = n + 1 := by simp [malloc]
  have hpk := poke_some (malloc (n + 1)) n 0 (by omega)
  have hl : (List.take n (malloc (n + 1)) ++ some 0 :: List.drop (n + 1) (malloc (n + 1))).length
      = n + 1 := by simp [hm]
  have hz2 : ∀ c ∈ v.take (n + 1), c ≠ 0 := fun c hc => hz c (List.mem_of_mem_take hc)
  refine ⟨?_, cstr_unterminated _ hz2⟩
  rw [strndup, hpk, hr]
  simp only
  rw [strndup_loop_overlong v hz (some 0 :: rest) _ 0 n hn (by rw [hl]; omega)]
  simp [hm]

/-- C21: for the string "foob" and n = 3 the shim returns the four bytes 'f',
'o', 'o', 'b': the store after the loop puts the byte at offset 3 of the source
over the terminator set at `r[3]`, so the buffer holds no terminator and is not
the 3-byte prefix followed by a terminator. -/
theorem strndup_loses_terminator :
    strndup (bytes [102, 111, 111, 98, 0]) 3 = some (bytes [102, 111, 111, 98]) ∧
    strndup (bytes [102, 111, 111, 98, 0]) 3 ≠ some (bytes [102, 111, 111, 0]) ∧
    cstr (bytes [102, 111, 111, 98]) = none ∧
    cstr (bytes [102, 111, 111, 98, 0]) = some [102, 111, 111, 98] := by
  decide

end Repose

namespace Repose

/-! ## hex_representation -/

theorem hex_digits_at : ∀ n, n < 16 → hex_digits[n]? = some (hex_char n) := by decide

theorem hex_value_char : ∀ n, n < 16 → hex_value (hex_char n) = some n := by decide

theorem hex_char_ne_zero (n : Nat) : hex_char n ≠ 0 := by
  unfold hex_char
  split_ifs <;> omega

theorem hex_char_mem : ∀ n, n < 16 →
    hex_char n ∈ [48, 49, 50, 51, 52, 53, 54, 55, 56, 57, 97, 98, 99, 100, 101, 102] := by
  decide

theorem poke_at_append (a : Buf) (x : Option Nat) (c : Buf) (v : Nat) :
    poke (a ++ x :: c) a.length v = some (a ++ some v :: c) := by
  simp [poke]

theorem hex_loop_writes (bs : List Nat) (hb : ∀ b ∈ bs, b < 256) (a m c : Buf) (i : Nat)
    (ha : a.length = 2 * i) (hm : m.length = 2 * bs.length) :
    hex_representation_loop bs (a ++ m ++ c) i bs.length
      = some (a ++ bytes (hex_string bs) ++ c) := by
  induction bs generalizing a m i with
  | nil =>
    have : m = [] := List.length_eq_zero.mp (by simpa using hm)
    simp [hex_representation_loop, hex_string, bytes, this]
  | cons b rest ih =>
    have hb1 : b < 256 := hb b (by simp)
    have hrest : ∀ x ∈ rest, x < 256 := fun x hx => hb x (by simp [hx])
    simp only [List.length_cons] at hm
    obtain ⟨x, m1, rfl⟩ := List.exists_cons_of_ne_nil
      (fun h : m = [] => by rw [h] at hm; simp at hm)
    obtain ⟨y, m2, rfl⟩ := List.exists_cons_of_ne_nil
      (fun h : m1 = [] => by rw [h] at hm; simp at hm; omega)
    have hm2 : m2.length = 2 * rest.length := by
      simp only [List.length_cons] at hm; omega
    have hhi := hex_digits_at (b / 16) (by omega)
    have hlo := hex_digits_at (b % 16) (by omega)
    have hp1 : poke (a ++ (x :: y :: m2) ++ c) (2 * i) (hex_char (b / 16))
        = some (a ++ some (hex_char (b / 16)) :: (y :: m2 ++ c)) := by
      rw [← ha]
      simpa using poke_at_append a x (y :: m2 ++ c) (hex_char (b / 16))
    have hp2 : poke (a ++ some (hex_char (b / 16)) :: (y :: m2 ++ c)) (2 * i + 1)
        (hex_char (b % 16))
        = some ((a ++ [some (hex_char (b / 16)), some (hex_char (b % 16))]) ++ m2 ++ c) := by
      have := poke_at_append (a ++ [some (hex_char (b / 16))]) y (m2 ++ c) (hex_char (b % 16))
      simp only [List.length_append, List.length_singleton, ha] at this
      simpa using this
    have hstep : hex_representation_loop (b :: rest) (a ++ (x :: y :: m2) ++ c) i
        (rest.length + 1)
        = hex_representation_loop rest
            ((a ++ [some (hex_char (b / 16)), some (hex_char (b % 16))]) ++ m2 ++ c)
            (i + 1) rest.length := by
      simp only [hex_representation_loop, hhi, hlo, Option.bind, hp1, hp2]
    rw [List.length_cons, hstep,
      ih hrest (a ++ [some (hex_char (b / 16)), some (hex_char (b % 16))]) m2 (i + 1)
        (by simp [ha]; omega) hm2]
    simp [hex_string, bytes]

theorem hex_string_length (bs : List Nat) : (hex_string bs).length = 2 * bs.length := by
  induction bs with
  | nil => rfl
  | cons b rest ih => simp [hex_string, ih]; omega

theorem hex_string_at (bs : List Nat) (i : Nat) (h : i < bs.length) :
    (hex_string bs)[2 * i]? = some (hex_char (bs[i] / 16)) ∧
    (hex_string bs)[2 * i + 1]? = some (hex_char (bs[i] % 16)) := by
  induction bs generalizing i with
  | nil => simp at h
  | cons b rest ih =>
    cases i with
    | zero => simp [hex_string]
    | succ j =>
      have hj : j < rest.length := by simpa using h
      have := ih j hj
      have e1 : 2 * (j + 1) = (2 * j + 1) + 1 := by omega
      have e2 : 2 * (j + 1) + 1 = (2 * j + 1 + 1) + 1 := by omega
      simp only [hex_string, e1, e2, List.getElem?_cons_succ, List.getElem_cons_succ]
      exact this

theorem hex_decode_string (bs : List Nat) (hb : ∀ b ∈ bs, b < 256) :
    hex_decode (hex_string bs) = some bs := by
  induction bs with
  | nil => rfl
  | cons b rest ih =>
    have hb1 : b < 256 := hb b (by simp)
    have h := ih (fun x hx => hb x (by simp [hx]))
    have e : 16 * (b / 16) + b % 16 = b := Nat.div_add_mod b 16
    simp [hex_string, hex_decode, hex_value_char (b / 16) (by omega),
      hex_value_char (b % 16) (by omega), h, e]

theorem hex_string_ne_zero (bs : List Nat) : ∀ c ∈ hex_string bs, c ≠ 0 := by
  induction bs with
  | nil => simp [hex_string]
  | cons b rest ih =>
    intro c hc
    simp only [hex_string, List.mem_cons] at hc
    rcases hc with h | h | h
    · rw [h]; exact hex_char_ne_zero _
    · rw [h]; exact hex_char_ne_zero _
    · exact ih c h

theorem hex_string_chars (bs : List Nat) (hb : ∀ b ∈ bs, b < 256) :
    ∀ c ∈ hex_string bs,
      c ∈ [48, 49, 50, 51, 52, 53, 54, 55, 56, 57, 97, 98, 99, 100, 101, 102] := by
  induction bs with
  | nil => simp [hex_string]
  | cons b rest ih =>
    have hb1 : b < 256 := hb b (by simp)
    intro c hc
    simp only [hex_string, List.mem_cons] at hc
    rcases hc with h | h | h
    · rw [h]; exact hex_char_mem _ (by omega)
    · rw [h]; exact hex_char_mem _ (by omega)
    · exact ih (fun x hx => hb x (by simp [hx])) c h

/-- C22: for every sequence of bytes (values below 256) passed with its length as
`size`, `hex_representation` returns a buffer of `2 * size + 1` bytes holding a
terminated string of exactly `2 * size` characters, all among `0-9a-f`, whose
characters `2i` and `2i + 1` are the hexadecimal digits of the high and the low
nibble of byte `i`; decoding it as hexadecimal pairs gives the bytes back, so two
byte sequences with the same string are equal. -/
theorem hex_representation_encodes (bs : List Nat) (hb : ∀ b ∈ bs, b < 256) :
    ∃ str, hex_representation bs bs.length = some str ∧
      str.length = 2 * bs.length + 1 ∧
      cstr str = some (hex_string bs) ∧
      (hex_string bs).length = 2 * bs.length ∧
      (∀ c ∈ hex_string bs,
        c ∈ [48, 49, 50, 51, 52, 53, 54, 55, 56, 57, 97, 98, 99, 100, 101, 102]) ∧
      (∀ i (h : i < bs.length),
        (hex_string bs)[2 * i]? = some (hex_char (bs[i] / 16)) ∧
        (hex_string bs)[2 * i + 1]? = some (hex_char (bs[i] % 16))) ∧
      hex_decode (hex_string bs) = some bs ∧
      (∀ bs2, (∀ b ∈ bs2, b < 256) → hex_string bs2 = hex_string bs → bs2 = bs) := by
  have hmal : malloc (2 * bs.length + 1)
      = ([] : Buf) ++ List.replicate (2 * bs.length) none ++ [none] := by
    simp [malloc, List.replicate_succ']
  have hloop := hex_loop_writes bs hb [] (List.replicate (2 * bs.length) none) [none] 0
    rfl (by simp)
  have hlen := hex_string_length bs
  have hpk : poke (bytes (hex_string bs) ++ [none]) (2 * bs.length) 0
      = some (bytes (hex_string bs) ++ [some 0]) := by
    have := poke_at_append (bytes (hex_string bs)) none [] 0
    simp only [bytes, List.length_map, hlen] at this
    simpa [bytes] using this
  have hnz := hex_string_ne_zero bs
  refine ⟨bytes (hex_string bs) ++ [some 0], ?_, ?_, ?_, hlen, ?_, hex_string_at bs,
    hex_decode_string bs hb, ?_⟩
  · rw [hex_representation, hmal, hloop]
    simpa [Option.bind] using hpk
  · simp [bytes, hlen]
  · exact cstr_bytes (hex_string bs) hnz []
  · exact hex_string_chars bs hb
  · intro bs2 hb2 heq
    have h1 := hex_decode_string bs2 hb2
    rw [heq, hex_decode_string bs hb] at h1
    exact (Option.some.inj h1).symm

theorem hex_representation_encodes_witness :
    ∃ str, hex_representation [0, 255, 171] [0, 255, 171].length = some str ∧
      str.length = 2 * [0, 255, 171].length + 1 ∧
      cstr str = some (hex_string [0, 255, 171]) ∧
      (hex_string [0, 255, 171]).length = 2 * [0, 255, 171].length ∧
      (∀ c ∈ hex_string [0, 255, 171],
        c ∈ [48, 49, 50, 51, 52, 53, 54, 55, 56, 57, 97, 98, 99, 100, 101, 102]) ∧
      (∀ i (h : i < [0, 255, 171].length),
        (hex_string [0, 255, 171])[2 * i]? = some (hex_char ([0, 255, 171][i] / 16)) ∧
        (hex_string [0, 255, 171])[2 * i + 1]?
          = some (hex_char ([0, 255, 171][i] % 16))) ∧
      hex_decode (hex_string [0, 255, 171]) = some [0, 255, 171] ∧
      (∀ bs2, (∀ b ∈ bs2, b < 256) → hex_string bs2 = hex_string [0, 255, 171] →
        bs2 = [0, 255, 171]) :=
  hex_representation_encodes [0, 255, 171] (by decide)

end Repose

namespace Repose

/-! ## strstrip -/

theorem strspn_take (v accept : List Nat) :
    v.take (strspn v accept) = v.takeWhile (fun c => accept.contains c) ∧
    v.drop (strspn v accept) = v.dropWhile (fun c => accept.contains c) := by
  induction v with
  | nil => simp [strspn]
  | cons c t ih =>
    by_cases h : c ∈ accept
    · simpa [strspn, h, List.takeWhile_cons, List.dropWhile_cons] using ih
    · simp [strspn, h, List.takeWhile_cons, List.dropWhile_cons]

theorem strspn_le (v accept : List Nat) : strspn v accept ≤ v.length := by
  induction v with
  | nil => simp [strspn]
  | cons c t ih =>
    by_cases h : c ∈ accept <;> simp [strspn, h]
    omega

theorem strstrip_loop_le (t : List Nat) (n : Nat) : strstrip_loop t n ≤ n := by
  induction n with
  | zero => simp [strstrip_loop]
  | succ m ih =>
    simp only [strstrip_loop]
    split_ifs
    · omega
    · omega

theorem strstrip_loop_take (t : List Nat) (n : Nat) (hn : n ≤ t.length) :
    t.take (strstrip_loop t n)
      = (t.take n).rdropWhile (fun c => strchr_found WHITESPACE c) := by
  induction n with
  | zero => simp [strstrip_loop]
  | succ m ih =>
    have hm : m < t.length := by omega
    have hd : t.getD m 0 = t[m] := by simp [List.getD, List.getElem?_eq_getElem hm]
    have ht : t.take (m + 1) = t.take m ++ [t[m]] := by
      rw [List.take_succ, List.getElem?_eq_getElem hm]
      rfl
    simp only [strstrip_loop, hd]
    by_cases hq : strchr_found WHITESPACE t[m] = true
    · simp only [hq, Bool.not_true, Bool.false_eq_true, if_false]
      rw [ih (by omega), ht, List.rdropWhile_concat_pos _ _ _ hq]
    · simp only [hq, Bool.not_false, if_true]
      rw [ht, List.rdropWhile_concat_neg _ _ _ hq]

theorem rdrop_rtake_split (q : Nat → Bool) (t : List Nat) :
    t = t.rdropWhile q ++ t.rtakeWhile q := by
  have h := List.takeWhile_append_dropWhile q t.reverse
  have h2 := congrArg List.reverse h
  simp only [List.reverse_append, List.reverse_reverse] at h2
  simpa [List.rdropWhile, List.rtakeWhile] using h2.symm

theorem strchr_found_mem (c : Nat) (hc : c ≠ 0)
    (h : strchr_found WHITESPACE c = true) : c ∈ WHITESPACE := by
  simp only [strchr_found, Bool.or_eq_true, beq_iff_eq] at h
  rcases h with h | h
  · exact absurd h hc
  · simpa using h

theorem strchr_found_of_mem (c : Nat) (h : c ∈ WHITESPACE) :
    strchr_found WHITESPACE c = true := by
  simp only [strchr_found, Bool.or_eq_true, beq_iff_eq]
  exact Or.inr (by simpa using h)

theorem poke_terminator (w : List Nat) (x : Buf) :
    poke (bytes w ++ some 0 :: x) w.length 0 = some (bytes w ++ some 0 :: x) := by
  have := poke_at_append (bytes w) (some 0) x 0
  simpa [bytes] using this

theorem poke_cut (v : List Nat) (rest : Buf) (k e : Nat) (h : k + e ≤ v.length) :
    ∃ m x, poke (bytes v ++ some 0 :: rest) (k + e) 0 = some m ∧
      m.drop k = bytes ((v.drop k).take e) ++ some 0 :: x := by
  have hlen : (bytes v ++ some 0 :: rest).length = v.length + 1 + rest.length := by
    simp [bytes]; omega
  have htake : List.take (k + e) (bytes v ++ some 0 :: rest) = bytes (v.take (k + e)) := by
    rw [List.take_append_of_le_length (by simp [bytes]; omega)]
    simp [bytes, List.map_take]
  have hl2 : (bytes (v.take (k + e))).length = k + e := by
    simp [bytes]; omega
  refine ⟨bytes (v.take (k + e)) ++ some 0 :: (bytes v ++ some 0 :: rest).drop (k + e + 1),
    (bytes v ++ some 0 :: rest).drop (k + e + 1), ?_, ?_⟩
  · rw [poke_some _ _ _ (by omega), htake]
  · rw [List.drop_append_eq_append_drop, hl2]
    have hsub : k - (k + e) = 0 := by omega
    rw [hsub, List.drop_zero]
    congr 1
    simp only [bytes, ← List.map_drop]
    congr 1
    rw [List.drop_take]
    congr 1
    omega

/-- The result of `strstrip` on a string: the pointer moves past the leading
white space and the memory from there on starts with the characters up to the
trailing white space, followed by a terminator. -/
theorem strstrip_result (mem : Buf) (v : List Nat) (h : cstr mem = some v) :
    ∃ m x, strstrip mem = some (strspn v WHITESPACE, m) ∧
      m.drop (strspn v WHITESPACE)
        = bytes ((v.dropWhile (fun c => WHITESPACE.contains c)).rdropWhile
            (fun c => strchr_found WHITESPACE c)) ++ some 0 :: x := by
  obtain ⟨⟨rest, hr⟩, _⟩ := cstr_split mem v h
  have hk := strspn_le v WHITESPACE
  have hd := (strspn_take v WHITESPACE).2
  have he := strstrip_loop_le (v.drop (strspn v WHITESPACE))
    (v.drop (strspn v WHITESPACE)).length
  have ht := strstrip_loop_take (v.drop (strspn v WHITESPACE))
    (v.drop (strspn v WHITESPACE)).length (le_refl _)
  rw [List.take_length] at ht
  have hlen : (v.drop (strspn v WHITESPACE)).length = v.length - strspn v WHITESPACE := by
    simp
  obtain ⟨m, x, h1, h2⟩ := poke_cut v rest (strspn v WHITESPACE)
    (strstrip_loop (v.drop (strspn v WHITESPACE)) (v.drop (strspn v WHITESPACE)).length)
    (by omega)
  refine ⟨m, x, ?_, ?_⟩
  · simp only [strstrip, h]
    rw [hr, h1]
    rfl
  · rw [h2, ht, hd]

end Repose

namespace Repose

theorem strspn_zero (r : List Nat)
    (h : ∀ c, r.head? = some c → c ∉ WHITESPACE) : strspn r WHITESPACE = 0 := by
  cases r with
  | nil => rfl
  | cons c t =>
    have hc : c ∉ WHITESPACE := h c rfl
    simp [strspn, hc]

theorem strstrip_loop_full (r : List Nat)
    (h : r.rdropWhile (fun c => strchr_found WHITESPACE c) = r) :
    strstrip_loop r r.length = r.length := by
  have h1 := strstrip_loop_take r r.length (le_refl _)
  rw [List.take_length, h] at h1
  have h2 := congrArg List.length h1
  have h3 := strstrip_loop_le r r.length
  rw [List.length_take] at h2
  omega

/-- C23: for every string, `strstrip` returns a pointer into it and stores one
terminator, so that the string returned is the string given without its leading
and its trailing characters from space, tab, newline and carriage return: it is a
contiguous part of the string given, what precedes and follows it is white space
only, it neither begins nor ends with such a character, a string of white space
only gives the empty string, and `strstrip` on the result returns it unchanged. -/
theorem strstrip_trims (mem : Buf) (v : List Nat) (h : cstr mem = some v) :
    ∃ k m r, strstrip mem = some (k, m) ∧ cstr (m.drop k) = some r ∧
      (∃ pre post, v = pre ++ r ++ post ∧ pre.length = k ∧
        (∀ c ∈ pre, c ∈ WHITESPACE) ∧ (∀ c ∈ post, c ∈ WHITESPACE)) ∧
      (∀ c, r.head? = some c → c ∉ WHITESPACE) ∧
      (∀ c, r.getLast? = some c → c ∉ WHITESPACE) ∧
      ((∀ c ∈ v, c ∈ WHITESPACE) → r = []) ∧
      strstrip (m.drop k) = some (0, m.drop k) := by
  obtain ⟨m, x, hs, hm⟩ := strstrip_result mem v h
  obtain ⟨_, hz⟩ := cstr_split mem v h
  have hsplit := List.takeWhile_append_dropWhile (fun c => WHITESPACE.contains c) v
  have hsplit2 := rdrop_rtake_split (fun c => strchr_found WHITESPACE c)
    (v.dropWhile (fun c => WHITESPACE.contains c))
  have htv : ∀ c ∈ v.dropWhile (fun c => WHITESPACE.contains c), c ∈ v :=
    fun c hc => (List.dropWhile_sublist _).subset hc
  have hrt : ∀ c ∈ (v.dropWhile (fun c => WHITESPACE.contains c)).rdropWhile
      (fun c => strchr_found WHITESPACE c),
      c ∈ v.dropWhile (fun c => WHITESPACE.contains c) :=
    fun c hc => (List.rdropWhile_prefix _ _).subset hc
  have hrz : ∀ c ∈ (v.dropWhile (fun c => WHITESPACE.contains c)).rdropWhile
      (fun c => strchr_found WHITESPACE c), c ≠ 0 :=
    fun c hc => hz c (htv c (hrt c hc))
  have hcs : cstr (m.drop (strspn v WHITESPACE))
      = some ((v.dropWhile (fun c => WHITESPACE.contains c)).rdropWhile
          (fun c => strchr_found WHITESPACE c)) := by
    rw [hm]; exact cstr_bytes _ hrz x
  have hhead : ∀ c, ((v.dropWhile (fun c => WHITESPACE.contains c)).rdropWhile
      (fun c => strchr_found WHITESPACE c)).head? = some c → c ∉ WHITESPACE := by
    intro c hc
    obtain ⟨suf, hsuf⟩ := List.rdropWhile_prefix (fun c => strchr_found WHITESPACE c)
      (v.dropWhile (fun c => WHITESPACE.contains c))
    have hnot := List.head?_dropWhile_not (fun c => WHITESPACE.contains c) v
    cases hr : (v.dropWhile (fun c => WHITESPACE.contains c)).rdropWhile
        (fun c => strchr_found WHITESPACE c) with
    | nil => rw [hr] at hc; simp at hc
    | cons a rest =>
      rw [hr] at hc hsuf
      simp only [List.head?_cons, Option.some.injEq] at hc
      rw [← hsuf] at hnot
      simp only [List.cons_append, List.head?_cons] at hnot
      rw [← hc]
      simpa using hnot
  have hlast : ∀ c, ((v.dropWhile (fun c => WHITESPACE.contains c)).rdropWhile
      (fun c => strchr_found WHITESPACE c)).getLast? = some c → c ∉ WHITESPACE := by
    intro c hc hmem
    have hne : (v.dropWhile (fun c => WHITESPACE.contains c)).rdropWhile
        (fun c => strchr_found WHITESPACE c) ≠ [] := by
      intro h0; rw [h0] at hc; simp at hc
    have hnot := List.rdropWhile_last_not (fun c => strchr_found WHITESPACE c)
      (v.dropWhile (fun c => WHITESPACE.contains c)) hne
    rw [List.getLast?_eq_getLast _ hne] at hc
    simp only [Option.some.injEq] at hc
    rw [hc] at hnot
    exact hnot (strchr_found_of_mem c hmem)
  refine ⟨strspn v WHITESPACE, m, _, hs, hcs, ?_, hhead, hlast, ?_, ?_⟩
  · refine ⟨v.takeWhile (fun c => WHITESPACE.contains c),
      (v.dropWhile (fun c => WHITESPACE.contains c)).rtakeWhile
        (fun c => strchr_found WHITESPACE c), ?_, ?_, ?_, ?_⟩
    · rw [List.append_assoc, ← hsplit2, hsplit]
    · rw [← (strspn_take v WHITESPACE).1, List.length_take]
      have := strspn_le v WHITESPACE
      omega
    · intro c hc
      have := List.mem_takeWhile_imp hc
      simpa using this
    · intro c hc
      have hq := List.mem_rtakeWhile_imp hc
      have hcv : c ∈ v := htv c ((List.rtakeWhile_suffix _ _).subset hc)
      exact strchr_found_mem c (hz c hcv) hq
  · intro hall
    have : v.dropWhile (fun c => WHITESPACE.contains c) = [] := by
      rw [List.dropWhile_eq_nil_iff]
      intro c hc
      simpa using hall c hc
    rw [this]
    simp
  · rw [hm]
    have h0 := strspn_zero _ hhead
    have hfull := strstrip_loop_full _
      (List.rdropWhile_idempotent (fun c => strchr_found WHITESPACE c)
        (v.dropWhile (fun c => WHITESPACE.contains c)))
    simp only [strstrip, cstr_bytes _ hrz x, h0, List.drop_zero, Nat.zero_add, hfull,
      poke_terminator, Option.map]

theorem strstrip_trims_witness :
    ∃ k m r, strstrip (bytes [32, 9, 97, 32, 98, 10, 13, 0]) = some (k, m) ∧
      cstr (m.drop k) = some r ∧
      (∃ pre post, [32, 9, 97, 32, 98, 10, 13] = pre ++ r ++ post ∧ pre.length = k ∧
        (∀ c ∈ pre, c ∈ WHITESPACE) ∧ (∀ c ∈ post, c ∈ WHITESPACE)) ∧
      (∀ c, r.head? = some c → c ∉ WHITESPACE) ∧
      (∀ c, r.getLast? = some c → c ∉ WHITESPACE) ∧
      ((∀ c ∈ [32, 9, 97, 32, 98, 10, 13], c ∈ WHITESPACE) → r = []) ∧
      strstrip (m.drop k) = some (0, m.drop k) :=
  strstrip_trims (bytes [32, 9, 97, 32, 98, 10, 13, 0]) [32, 9, 97, 32, 98, 10, 13]
    (by decide)

end Repose
